import Mathlib

/-!
Verification of the swiss-cheese repository's core algorithms against its
natural-language specification.

The development shallowly embeds three subsystems:

* the dependency-aware task scheduler
  (`src/swiss-cheese-verifier/orchestrator/scheduler.py`),
* the layered gate/retry state machine of the orchestrator hook
  (`src/swiss-cheese/hooks/orchestrate.py`), and
* the git-worktree manager with its linear rebase/merge pass
  (`src/swiss-cheese-verifier/worktree/manager.py`).

Python dictionaries are embedded as association lists (insertion ordered,
keys unique), machine strings as `String`, and git state abstractly: a
branch is the list of commit identifiers it points to, the trunk is such a
list, and whether a rebase of a given worktree conflicts is an
uninterpreted boolean oracle supplied as a parameter (conflicts depend on
file contents, which the manager never inspects).
-/

namespace SwissCheese

/-! ## Scheduler (`orchestrator/scheduler.py`)

`TaskScheduler.schedule_tasks` builds a graph `{name: deps ∩ scheduled}`
over the (optionally filtered) task dictionary and repeatedly emits the
set of zero-in-degree nodes as one batch, using `graphlib`'s
`TopologicalSorter` (`prepare` raises `CycleError` on a cyclic graph).
The embedding represents a batch by its `task_names` list and performs the
same Kahn-style layering directly: a node is ready when every one of its
(filtered) dependencies has already been emitted, i.e. is no longer a key
of the remaining sub-graph. -/

/-- A task as consumed by the scheduler (`toml_parser.Task`): identity,
owning layer and dependency names.  Fields the scheduler never reads
(description, agent, …) are omitted. -/
structure SchedTask where
  name : String
  layer : String := ""
  depends_on : List String := []
deriving Repr, DecidableEq

/-- Keys of a dependency graph, in insertion order
(`graph.keys()` for the Python dict `graph`). -/
def graphKeys (g : List (String × List String)) : List String :=
  g.map Prod.fst

/-- The names currently ready: rows all of whose dependencies have left the
remaining graph (`TopologicalSorter.get_ready()` between `done` rounds). -/
def readyNames (g : List (String × List String)) : List String :=
  (g.filter fun p => p.2.all fun d => decide (d ∉ graphKeys g)).map Prod.fst

/-- The sub-graph remaining once the tasks of a batch are `done`: the rows
of the tasks not yet scheduled. -/
def restGraph (g : List (String × List String)) (batch : List String) :
    List (String × List String) :=
  g.filter fun p => decide (p.1 ∉ batch)

/-- The first still-unsatisfied dependency of a task: its row's first
dependency that is itself a key of the remaining graph. -/
def stepDep (g : List (String × List String)) (n : String) : Option String :=
  match g.find? fun p => p.1 = n with
  | none => none
  | some p => p.2.find? fun d => decide (d ∈ graphKeys g)

/-- Successor function of the walk used to locate a cycle: step to the
first unsatisfied dependency (identity on nodes without one, which cannot
occur on a stuck graph). -/
def stepFun (g : List (String × List String)) (n : String) : String :=
  (stepDep g n).getD n

/-- Successive images of a point under a step function. -/
def iterList (f : String → String) (y : String) : Nat → List String
  | 0 => []
  | m + 1 => f y :: iterList f (f y) m

/-- All index pairs `(i, j)` with `i < j ≤ N`, in lexicographic order of
`(j, i)`. -/
def repCandidates (N : Nat) : List (Nat × Nat) :=
  (List.range (N + 1)).flatMap fun j => (List.range j).map fun i => (i, j)

/-- The first pair of indices at which the walk's iterates coincide. -/
def repPairs (f : String → String) (x : String) (N : Nat) :
    Option (Nat × Nat) :=
  (repCandidates N).find? fun q => f^[q.1] x == f^[q.2] x

/-- The cycle a stuck graph is reported with: walk first-unsatisfied
dependencies from the first remaining task; by pigeonhole two of the
first `|g| + 1` iterates coincide, and the segment between them is a
dependency cycle.  This models the content of the `CycleError` that
`TopologicalSorter.prepare` raises and `schedule_tasks` re-raises: the
node list of one detected cycle (graphlib documents that when multiple
cycles exist only one of them is reported; graphlib's list repeats the
starting node at the end, a repetition elided here). -/
def findCycle (g : List (String × List String)) : List String :=
  match g with
  | [] => []
  | p0 :: _ =>
    match repPairs (stepFun g) p0.1 (graphKeys g).length with
    | some (i, j) =>
      (stepFun g)^[i] p0.1 ::
        iterList (stepFun g) ((stepFun g)^[i] p0.1) (j - i - 1)
    | none => []

/-- One `get_ready`/`done` loop of `schedule_tasks`, fuelled for structural
recursion; `kahnBatches` supplies fuel `g.length`, which is always enough
because every emitted batch removes at least one row.  A stuck non-empty
graph is the `CycleError` case; as in the source, the error payload names
the members of one detected cycle (`findCycle`). -/
def kahnGo : Nat → List (String × List String) →
    Except (List String) (List (List String))
  | _, [] => .ok []
  | 0, g => .error (findCycle g)
  | fuel + 1, g =>
    let batch := readyNames g
    if batch.isEmpty then
      .error (findCycle g)
    else
      match kahnGo fuel (restGraph g batch) with
      | .ok bs => .ok (batch :: bs)
      | .error l => .error l

/-- Batch extraction of `schedule_tasks` over an already-built graph. -/
def kahnBatches (g : List (String × List String)) :
    Except (List String) (List (List String)) :=
  kahnGo g.length g

/-- Append-only duplicate removal keeping first occurrences, as a Python
dict comprehension does with repeated keys. -/
def dedupFirstGo (seen : List String) : List String → List String
  | [] => []
  | x :: xs =>
    if x ∈ seen then dedupFirstGo seen xs
    else x :: dedupFirstGo (x :: seen) xs

/-- First-occurrence deduplication of a name list. -/
def dedupFirst (l : List String) : List String :=
  dedupFirstGo [] l

/-- `TaskScheduler._get_tasks`: all tasks when no filter, otherwise the
filter's names that exist in the config, resolved to their tasks. -/
def selectTasks (tasks : List SchedTask) : Option (List String) → List SchedTask
  | none => tasks
  | some filt =>
    (dedupFirst (filt.filter fun n => tasks.any fun t => t.name = n)).filterMap
      fun n => tasks.find? fun t => t.name = n

/-- The dependency graph built by `schedule_tasks`: one row per scheduled
task, dependencies restricted to the scheduled set
(`deps = {d for d in task.depends_on if d in tasks_to_schedule}`). -/
def buildGraph (tasks : List SchedTask) : List (String × List String) :=
  tasks.map fun t =>
    (t.name, t.depends_on.filter fun d => tasks.any fun u => u.name = d)

/-- `TaskScheduler.schedule_tasks`, returning the `task_names` of each
batch in order, or the cycle error. -/
def schedule_tasks (tasks : List SchedTask) (filt : Option (List String)) :
    Except (List String) (List (List String)) :=
  kahnBatches (buildGraph (selectTasks tasks filt))

/-- A dependency edge of the restricted graph: `a`'s row lists `b`, and `b`
is itself a scheduled task. -/
def Edge (g : List (String × List String)) (a b : String) : Prop :=
  ∃ p ∈ g, p.1 = a ∧ b ∈ p.2 ∧ b ∈ graphKeys g

instance (g : List (String × List String)) (a b : String) :
    Decidable (Edge g a b) :=
  inferInstanceAs (Decidable (∃ p ∈ g, p.1 = a ∧ b ∈ p.2 ∧ b ∈ graphKeys g))

/-- A dependency cycle: a non-empty name list whose consecutive elements
(cyclically) are joined by `Edge`. -/
def CycleIn (g : List (String × List String)) : List String → Prop
  | [] => False
  | n :: rest => List.Chain (Edge g) n (rest ++ [n])

/-- Executable edge test for the graph's dependency relation. -/
def edgeB (g : List (String × List String)) (a b : String) : Bool :=
  g.any fun p => p.1 == a && p.2.contains b && (graphKeys g).contains b

theorem edgeB_iff {g : List (String × List String)} {a b : String} :
    edgeB g a b = true ↔ Edge g a b := by
  simp only [edgeB, Edge, List.any_eq_true, Bool.and_eq_true, beq_iff_eq,
    List.elem_iff]
  constructor
  · rintro ⟨p, hp, ⟨h1, h2⟩, h3⟩; exact ⟨p, hp, h1, h2, h3⟩
  · rintro ⟨p, hp, h1, h2, h3⟩; exact ⟨p, hp, ⟨h1, h2⟩, h3⟩

/-- Executable chain test. -/
def chainB (R : String → String → Bool) : String → List String → Bool
  | _, [] => true
  | a, b :: l => R a b && chainB R b l

theorem chainB_iff {R : String → String → Bool} :
    ∀ {l : List String} {a : String},
    chainB R a l = true ↔ List.Chain (fun x y => R x y = true) a l := by
  intro l
  induction l with
  | nil => intro a; simp [chainB]
  | cons b l' ih =>
    intro a
    simp only [chainB, Bool.and_eq_true, List.chain_cons, ih]

instance (g : List (String × List String)) :
    (c : List String) → Decidable (CycleIn g c)
  | [] => isFalse id
  | n :: rest =>
    decidable_of_iff (chainB (edgeB g) n (rest ++ [n]) = true)
      (by
        rw [chainB_iff]
        exact List.Chain.iff fun a b => edgeB_iff)

/-! ### Basic lemmas about the graph operations -/

theorem length_filter_lt_of_mem {α : Type} {l : List α} {f : α → Bool} {x : α}
    (hx : x ∈ l) (hfx : f x = false) : (l.filter f).length < l.length := by
  induction l with
  | nil => cases hx
  | cons a as ih =>
    rcases List.mem_cons.1 hx with rfl | hx2
    · simp only [List.filter_cons, hfx, Bool.false_eq_true, if_false, List.length_cons]
      exact Nat.lt_succ_of_le (List.length_filter_le _ _)
    · by_cases hfa : f a = true <;> simp only [List.filter_cons, hfa, if_true, if_false,
        List.length_cons, Bool.false_eq_true]
      · exact Nat.succ_lt_succ (ih hx2)
      · exact Nat.lt_succ_of_lt (ih hx2)

theorem mem_graphKeys {g : List (String × List String)} {n : String} :
    n ∈ graphKeys g ↔ ∃ p ∈ g, p.1 = n := by
  simp [graphKeys]

theorem mem_readyNames {g : List (String × List String)} {n : String} :
    n ∈ readyNames g ↔ ∃ p ∈ g, p.1 = n ∧ ∀ d ∈ p.2, d ∉ graphKeys g := by
  simp only [readyNames, List.mem_map, List.mem_filter, List.all_eq_true,
    decide_eq_true_eq]
  constructor
  · rintro ⟨p, ⟨hp, hd⟩, rfl⟩; exact ⟨p, hp, rfl, hd⟩
  · rintro ⟨p, hp, rfl, hd⟩; exact ⟨p, ⟨hp, hd⟩, rfl⟩

theorem readyNames_subset_keys {g : List (String × List String)} {n : String}
    (h : n ∈ readyNames g) : n ∈ graphKeys g := by
  rcases mem_readyNames.1 h with ⟨p, hp, rfl, -⟩
  exact mem_graphKeys.2 ⟨p, hp, rfl⟩

theorem row_eq_of_nodup {g : List (String × List String)}
    (hnd : (graphKeys g).Nodup) {p q : String × List String}
    (hp : p ∈ g) (hq : q ∈ g) (hfst : p.1 = q.1) : p = q := by
  induction g with
  | nil => cases hp
  | cons a as ih =>
    simp only [graphKeys, List.map_cons, List.nodup_cons] at hnd
    rcases List.mem_cons.1 hp with rfl | hp2 <;> rcases List.mem_cons.1 hq with rfl | hq2
    · rfl
    · exact absurd (hfst ▸ (List.mem_map_of_mem Prod.fst hq2)) hnd.1
    · exact absurd (hfst ▸ (List.mem_map_of_mem Prod.fst hp2)) hnd.1
    · exact ih hnd.2 hp2 hq2

theorem mem_restGraph {g : List (String × List String)} {batch : List String}
    {p : String × List String} :
    p ∈ restGraph g batch ↔ p ∈ g ∧ p.1 ∉ batch := by
  simp [restGraph, List.mem_filter]

theorem keys_restGraph {g : List (String × List String)} {batch : List String}
    {n : String} :
    n ∈ graphKeys (restGraph g batch) ↔ n ∈ graphKeys g ∧ n ∉ batch := by
  constructor
  · intro h
    rcases mem_graphKeys.1 h with ⟨p, hp, rfl⟩
    rcases mem_restGraph.1 hp with ⟨hpg, hnb⟩
    exact ⟨mem_graphKeys.2 ⟨p, hpg, rfl⟩, hnb⟩
  · rintro ⟨hk, hnb⟩
    rcases mem_graphKeys.1 hk with ⟨p, hp, rfl⟩
    exact mem_graphKeys.2 ⟨p, mem_restGraph.2 ⟨hp, hnb⟩, rfl⟩

theorem nodup_keys_restGraph {g : List (String × List String)} {batch : List String}
    (hnd : (graphKeys g).Nodup) : (graphKeys (restGraph g batch)).Nodup :=
  ((List.filter_sublist g).map Prod.fst).nodup hnd

theorem restGraph_length_lt {g : List (String × List String)}
    (hne : ¬ (readyNames g).isEmpty = true) :
    (restGraph g (readyNames g)).length < g.length := by
  rcases List.exists_mem_of_ne_nil (readyNames g)
    (by simpa using hne) with ⟨n, hn⟩
  rcases mem_readyNames.1 hn with ⟨p, hp, rfl, -⟩
  exact length_filter_lt_of_mem hp (by simp [hn])

/-! ### Batch indices -/

/-- Index of the first batch containing a given name. -/
def batchIdx (bs : List (List String)) (n : String) : Option Nat :=
  match bs with
  | [] => none
  | b :: rest => if n ∈ b then some 0 else (batchIdx rest n).map (· + 1)

theorem batchIdx_cons_mem {b : List String} {bs : List (List String)} {n : String}
    (h : n ∈ b) : batchIdx (b :: bs) n = some 0 := by
  simp [batchIdx, h]

theorem batchIdx_cons_not_mem {b : List String} {bs : List (List String)} {n : String}
    (h : n ∉ b) : batchIdx (b :: bs) n = (batchIdx bs n).map (· + 1) := by
  simp [batchIdx, h]

theorem mem_flatten_iff_batchIdx {bs : List (List String)} {n : String} :
    n ∈ bs.flatten ↔ ∃ i, batchIdx bs n = some i := by
  induction bs with
  | nil => simp [batchIdx]
  | cons b rest ih =>
    by_cases hb : n ∈ b
    · simp [batchIdx_cons_mem hb, hb]
    · simp only [List.flatten_cons, List.mem_append, hb, false_or,
        batchIdx_cons_not_mem hb, ih]
      constructor
      · rintro ⟨i, hi⟩; exact ⟨i + 1, by simp [hi]⟩
      · rintro ⟨i, hi⟩
        rcases Option.map_eq_some'.1 hi with ⟨j, hj, -⟩
        exact ⟨j, hj⟩

/-! ### Properties of successful runs of the Kahn loop -/

theorem kahnGo_nil {fuel : Nat} : kahnGo fuel [] = .ok [] := by
  cases fuel <;> rfl

theorem kahnGo_succ_ok {fuel : Nat} {p0 : String × List String}
    {g' : List (String × List String)} {bs : List (List String)}
    (h : kahnGo (fuel + 1) (p0 :: g') = .ok bs) :
    ∃ bs', (readyNames (p0 :: g')).isEmpty = false ∧
      kahnGo fuel (restGraph (p0 :: g') (readyNames (p0 :: g'))) = .ok bs' ∧
      bs = readyNames (p0 :: g') :: bs' := by
  by_cases hbe : (readyNames (p0 :: g')).isEmpty = true
  · simp [kahnGo, hbe] at h
  · rw [Bool.not_eq_true] at hbe
    cases hrec : kahnGo fuel (restGraph (p0 :: g') (readyNames (p0 :: g'))) with
    | ok bs' =>
      refine ⟨bs', hbe, rfl, ?_⟩
      simp only [kahnGo, hbe, Bool.false_eq_true, if_false, hrec] at h
      exact (Except.ok.inj h).symm
    | error l =>
      simp only [kahnGo, hbe, Bool.false_eq_true, if_false, hrec] at h
      exact Except.noConfusion h

theorem kahnGo_ok_countP {fuel : Nat} :
    ∀ {g : List (String × List String)} {bs : List (List String)},
    (graphKeys g).Nodup → kahnGo fuel g = .ok bs → ∀ n : String,
    bs.countP (fun b => decide (n ∈ b)) = if n ∈ graphKeys g then 1 else 0 := by
  induction fuel with
  | zero =>
    intro g bs _ h n
    cases g with
    | nil =>
      rw [kahnGo_nil] at h
      cases h
      simp [graphKeys]
    | cons p0 g' => exact absurd h (by simp [kahnGo])
  | succ fuel ih =>
    intro g bs hnd h n
    cases g with
    | nil =>
      rw [kahnGo_nil] at h
      cases h
      simp [graphKeys]
    | cons p0 g' =>
      rcases kahnGo_succ_ok h with ⟨bs', -, hrec, rfl⟩
      have hnd' : (graphKeys (restGraph (p0 :: g') (readyNames (p0 :: g')))).Nodup :=
        nodup_keys_restGraph hnd
      have hih := ih hnd' hrec n
      rw [List.countP_cons, hih]
      by_cases hb : n ∈ readyNames (p0 :: g')
      · have hk : n ∈ graphKeys (p0 :: g') := readyNames_subset_keys hb
        have hnrest : n ∉ graphKeys (restGraph (p0 :: g') (readyNames (p0 :: g'))) := by
          intro hmem
          exact (keys_restGraph.1 hmem).2 hb
        simp [hb, hk, hnrest]
      · by_cases hk : n ∈ graphKeys (p0 :: g')
        · have hrest : n ∈ graphKeys (restGraph (p0 :: g') (readyNames (p0 :: g'))) :=
            keys_restGraph.2 ⟨hk, hb⟩
          simp [hb, hk, hrest]
        · have hnrest : n ∉ graphKeys (restGraph (p0 :: g') (readyNames (p0 :: g'))) := by
            intro hmem
            exact hk (keys_restGraph.1 hmem).1
          simp [hb, hk, hnrest]

theorem kahnGo_ok_mem_flatten {fuel : Nat} {g : List (String × List String)}
    {bs : List (List String)} (hnd : (graphKeys g).Nodup)
    (h : kahnGo fuel g = .ok bs) (n : String) :
    n ∈ bs.flatten ↔ n ∈ graphKeys g := by
  have hcount := kahnGo_ok_countP hnd h n
  constructor
  · intro hmem
    rcases List.mem_flatten.1 hmem with ⟨b, hb, hnb⟩
    have hpos : 0 < bs.countP (fun b => decide (n ∈ b)) :=
      List.countP_pos_iff.2 ⟨b, hb, by simp [hnb]⟩
    by_contra hk
    rw [hcount, if_neg hk] at hpos
    exact Nat.lt_irrefl 0 hpos
  · intro hk
    have hpos : 0 < bs.countP (fun b => decide (n ∈ b)) := by
      rw [hcount, if_pos hk]
      exact Nat.zero_lt_one
    rcases List.countP_pos_iff.1 hpos with ⟨b, hb, hnb⟩
    exact List.mem_flatten.2 ⟨b, hb, by simpa using hnb⟩

theorem kahnGo_ok_batchIdx_total {fuel : Nat} {g : List (String × List String)}
    {bs : List (List String)} (hnd : (graphKeys g).Nodup)
    (h : kahnGo fuel g = .ok bs) {n : String} (hk : n ∈ graphKeys g) :
    ∃ i, batchIdx bs n = some i :=
  mem_flatten_iff_batchIdx.1 ((kahnGo_ok_mem_flatten hnd h n).2 hk)

theorem kahnGo_ok_batch_nodup {fuel : Nat} :
    ∀ {g : List (String × List String)} {bs : List (List String)},
    (graphKeys g).Nodup → kahnGo fuel g = .ok bs → ∀ b ∈ bs, b.Nodup := by
  induction fuel with
  | zero =>
    intro g bs hnd h b hb
    cases g with
    | nil => rw [kahnGo_nil] at h; cases h; cases hb
    | cons p0 g' => exact absurd h (by simp [kahnGo])
  | succ fuel ih =>
    intro g bs hnd h b hb
    cases g with
    | nil => rw [kahnGo_nil] at h; cases h; cases hb
    | cons p0 g' =>
      rcases kahnGo_succ_ok h with ⟨bs', -, hrec, rfl⟩
      rcases List.mem_cons.1 hb with rfl | hb'
      · exact ((List.filter_sublist _).map Prod.fst).nodup hnd
      · exact ih (nodup_keys_restGraph hnd) hrec b hb'

theorem kahnGo_ok_dep_lt {fuel : Nat} :
    ∀ {g : List (String × List String)} {bs : List (List String)},
    (graphKeys g).Nodup → kahnGo fuel g = .ok bs →
    ∀ p ∈ g, ∀ d ∈ p.2, d ∈ graphKeys g →
    ∃ i j, batchIdx bs d = some i ∧ batchIdx bs p.1 = some j ∧ i < j := by
  induction fuel with
  | zero =>
    intro g bs hnd h p hp d hd hdk
    cases g with
    | nil => cases hp
    | cons p0 g' => exact absurd h (by simp [kahnGo])
  | succ fuel ih =>
    intro g bs hnd h p hp d hd hdk
    cases g with
    | nil => cases hp
    | cons p0 g' =>
      rcases kahnGo_succ_ok h with ⟨bs', -, hrec, rfl⟩
      have hnd' : (graphKeys (restGraph (p0 :: g') (readyNames (p0 :: g')))).Nodup :=
        nodup_keys_restGraph hnd
      have hp1nb : p.1 ∉ readyNames (p0 :: g') := by
        intro hmem
        rcases mem_readyNames.1 hmem with ⟨q, hq, hq1, hqd⟩
        cases row_eq_of_nodup hnd hq hp hq1
        exact hqd d hd hdk
      have hprest : p ∈ restGraph (p0 :: g') (readyNames (p0 :: g')) :=
        mem_restGraph.2 ⟨hp, hp1nb⟩
      by_cases hdb : d ∈ readyNames (p0 :: g')
      · have hp1k : p.1 ∈ graphKeys (restGraph (p0 :: g') (readyNames (p0 :: g'))) :=
          mem_graphKeys.2 ⟨p, hprest, rfl⟩
        rcases kahnGo_ok_batchIdx_total hnd' hrec hp1k with ⟨j, hj⟩
        refine ⟨0, j + 1, batchIdx_cons_mem hdb, ?_, Nat.succ_pos j⟩
        rw [batchIdx_cons_not_mem hp1nb, hj]
        rfl
      · have hdrest : d ∈ graphKeys (restGraph (p0 :: g') (readyNames (p0 :: g'))) :=
          keys_restGraph.2 ⟨hdk, hdb⟩
        rcases ih hnd' hrec p hprest d hd hdrest with ⟨i, j, hi, hj, hij⟩
        refine ⟨i + 1, j + 1, ?_, ?_, Nat.succ_lt_succ hij⟩
        · rw [batchIdx_cons_not_mem hdb, hi]; rfl
        · rw [batchIdx_cons_not_mem hp1nb, hj]; rfl

theorem kahnGo_ok_maximal {fuel : Nat} :
    ∀ {g : List (String × List String)} {bs : List (List String)},
    (graphKeys g).Nodup → kahnGo fuel g = .ok bs →
    ∀ p ∈ g, ∀ i : Nat,
    (∀ d ∈ p.2, d ∈ graphKeys g → ∃ j, batchIdx bs d = some j ∧ j < i) →
    ∃ k, batchIdx bs p.1 = some k ∧ k ≤ i := by
  induction fuel with
  | zero =>
    intro g bs hnd h p hp i hyp
    cases g with
    | nil => cases hp
    | cons p0 g' => exact absurd h (by simp [kahnGo])
  | succ fuel ih =>
    intro g bs hnd h p hp i hyp
    cases g with
    | nil => cases hp
    | cons p0 g' =>
      rcases kahnGo_succ_ok h with ⟨bs', -, hrec, rfl⟩
      by_cases hpb : p.1 ∈ readyNames (p0 :: g')
      · exact ⟨0, batchIdx_cons_mem hpb, Nat.zero_le i⟩
      · have hexd : ∃ d, d ∈ p.2 ∧ d ∈ graphKeys (p0 :: g') := by
          by_contra hno
          push_neg at hno
          exact hpb (mem_readyNames.2 ⟨p, hp, rfl, hno⟩)
        rcases hexd with ⟨d0, hd0, hd0k⟩
        rcases hyp d0 hd0 hd0k with ⟨j0, -, hj0lt⟩
        cases i with
        | zero => exact absurd hj0lt (Nat.not_lt_zero j0)
        | succ i' =>
          have hprest : p ∈ restGraph (p0 :: g') (readyNames (p0 :: g')) :=
            mem_restGraph.2 ⟨hp, hpb⟩
          have hnd' : (graphKeys (restGraph (p0 :: g') (readyNames (p0 :: g')))).Nodup :=
            nodup_keys_restGraph hnd
          have hyp' : ∀ d ∈ p.2,
              d ∈ graphKeys (restGraph (p0 :: g') (readyNames (p0 :: g'))) →
              ∃ j, batchIdx bs' d = some j ∧ j < i' := by
            intro d hd hdr
            rcases keys_restGraph.1 hdr with ⟨hdk, hdb⟩
            rcases hyp d hd hdk with ⟨j, hj, hjlt⟩
            rw [batchIdx_cons_not_mem hdb] at hj
            rcases Option.map_eq_some'.1 hj with ⟨j', hj', rfl⟩
            exact ⟨j', hj', by omega⟩
          rcases ih hnd' hrec p hprest i' hyp' with ⟨k', hk', hk'le⟩
          refine ⟨k' + 1, ?_, Nat.succ_le_succ hk'le⟩
          rw [batchIdx_cons_not_mem hpb, hk']
          rfl

/-! ### Cycles force the error result; acyclic graphs succeed -/

theorem edge_fst_mem_keys {g : List (String × List String)} {a b : String}
    (h : Edge g a b) : a ∈ graphKeys g := by
  rcases h with ⟨p, hp, rfl, -, -⟩
  exact mem_graphKeys.2 ⟨p, hp, rfl⟩

theorem edge_snd_mem_keys {g : List (String × List String)} {a b : String}
    (h : Edge g a b) : b ∈ graphKeys g := h.choose_spec.2.2.2

/-- Every element of a chain (other than the last) has an outgoing step
into the chain's tail. -/
theorem chain_out {R : String → String → Prop} :
    ∀ {l : List String} {a : String}, List.Chain R a l → l ≠ [] →
    ∀ m ∈ a :: l.dropLast, ∃ b ∈ l, R m b := by
  intro l
  induction l with
  | nil =>
    intro a _ hne
    exact absurd rfl hne
  | cons x l' ih =>
    intro a hch _ m hm
    rcases List.chain_cons.1 hch with ⟨hax, hch'⟩
    cases l' with
    | nil =>
      simp only [List.dropLast_single] at hm
      rcases List.mem_singleton.1 (by simpa using hm) with rfl
      exact ⟨x, List.mem_singleton.2 rfl, hax⟩
    | cons y l'' =>
      rw [List.dropLast_cons₂] at hm
      rcases List.mem_cons.1 hm with rfl | hm'
      · exact ⟨x, List.mem_cons_self _ _, hax⟩
      · rcases ih hch' (List.cons_ne_nil y l'') m hm' with ⟨b, hb, hR⟩
        exact ⟨b, List.mem_cons_of_mem x hb, hR⟩

/-- Every member of a dependency cycle has an edge to another member. -/
theorem cycle_out_edge {g : List (String × List String)} {c : List String}
    (hc : CycleIn g c) : ∀ m ∈ c, ∃ b ∈ c, Edge g m b := by
  cases c with
  | nil => cases hc
  | cons n rest =>
    intro m hm
    have hch : List.Chain (Edge g) n (rest ++ [n]) := hc
    have hm' : m ∈ n :: (rest ++ [n]).dropLast := by
      rw [List.dropLast_concat]
      exact hm
    rcases chain_out hch (by simp) m hm' with ⟨b, hb, hR⟩
    rcases List.mem_append.1 hb with hb' | hb'
    · exact ⟨b, List.mem_cons_of_mem n hb', hR⟩
    · rcases List.mem_singleton.1 hb' with rfl
      exact ⟨b, List.mem_cons_self _ _, hR⟩

theorem cycle_ne_nil {g : List (String × List String)} {c : List String}
    (hc : CycleIn g c) : c ≠ [] := by
  cases c with
  | nil => cases hc
  | cons n rest => exact List.cons_ne_nil n rest

theorem cycle_mem_keys {g : List (String × List String)} {c : List String}
    (hc : CycleIn g c) : ∀ m ∈ c, m ∈ graphKeys g := by
  intro m hm
  rcases cycle_out_edge hc m hm with ⟨b, -, hR⟩
  exact edge_fst_mem_keys hR

/-- A chain can be transported along an implication that holds on the
members of a carrier list. -/
theorem chain_imp_mem {R S : String → String → Prop} {c0 : List String}
    (H : ∀ a b, a ∈ c0 → b ∈ c0 → R a b → S a b) :
    ∀ {l : List String} {a : String}, a ∈ c0 → (∀ x ∈ l, x ∈ c0) →
    List.Chain R a l → List.Chain S a l := by
  intro l
  induction l with
  | nil => intro a _ _ _; exact List.Chain.nil
  | cons x l' ih =>
    intro a ha hl hch
    rcases List.chain_cons.1 hch with ⟨hax, hch'⟩
    have hx : x ∈ c0 := hl x (List.mem_cons_self _ _)
    exact List.chain_cons.2 ⟨H a x ha hx hax,
      ih hx (fun z hz => hl z (List.mem_cons_of_mem x hz)) hch'⟩

/-- No member of a cycle is ever ready, so a whole cycle survives into the
remaining sub-graph after a batch is emitted. -/
theorem cycle_restGraph {g : List (String × List String)} {c : List String}
    (hnd : (graphKeys g).Nodup) (hc : CycleIn g c) :
    CycleIn (restGraph g (readyNames g)) c := by
  have hnotready : ∀ m ∈ c, m ∉ readyNames g := by
    intro m hm hread
    rcases cycle_out_edge hc m hm with ⟨b, -, hR⟩
    rcases hR with ⟨p, hp, rfl, hbp, hbk⟩
    rcases mem_readyNames.1 hread with ⟨q, hq, hq1, hqd⟩
    cases row_eq_of_nodup hnd hq hp hq1
    exact hqd b hbp hbk
  have hedge : ∀ a b, a ∈ c → b ∈ c → Edge g a b →
      Edge (restGraph g (readyNames g)) a b := by
    intro a b ha hb hR
    rcases hR with ⟨p, hp, rfl, hbp, hbk⟩
    refine ⟨p, mem_restGraph.2 ⟨hp, hnotready p.1 ha⟩, rfl, hbp, ?_⟩
    exact keys_restGraph.2 ⟨hbk, hnotready b hb⟩
  cases c with
  | nil => cases hc
  | cons n rest =>
    have hch : List.Chain (Edge g) n (rest ++ [n]) := hc
    refine chain_imp_mem hedge (List.mem_cons_self _ _) ?_ hch
    intro x hx
    rcases List.mem_append.1 hx with hx' | hx'
    · exact List.mem_cons_of_mem n hx'
    · rcases List.mem_singleton.1 hx' with rfl
      exact List.mem_cons_self _ _

/-- A dependency edge of the remaining sub-graph is one of the full
graph, so a cycle of the sub-graph is a cycle of the graph. -/
theorem cycleIn_of_restGraph {g : List (String × List String)}
    {batch c : List String} (hc : CycleIn (restGraph g batch) c) :
    CycleIn g c := by
  have hedge : ∀ a b : String, Edge (restGraph g batch) a b → Edge g a b := by
    intro a b hR
    rcases hR with ⟨p, hpr, rfl, hbp, hbk⟩
    exact ⟨p, (mem_restGraph.1 hpr).1, rfl, hbp, (keys_restGraph.1 hbk).1⟩
  cases c with
  | nil => cases hc
  | cons n rest => exact List.Chain.imp hedge hc

/-- Whatever the fuel, a cyclic graph makes the Kahn loop fail with a
cycle error: scheduling terminates and returns no batch list in which
the cyclic tasks could have been silently dropped. -/
theorem kahnGo_error_of_cycle {c : List String} (fuel : Nat) :
    ∀ {g : List (String × List String)}, (graphKeys g).Nodup → CycleIn g c →
    ∃ l, kahnGo fuel g = .error l := by
  induction fuel with
  | zero =>
    intro g hnd hc
    cases g with
    | nil =>
      rcases List.exists_mem_of_ne_nil c (cycle_ne_nil hc) with ⟨m, hm⟩
      have := cycle_mem_keys hc m hm
      simp [graphKeys] at this
    | cons p0 g' =>
      exact ⟨findCycle (p0 :: g'), by simp [kahnGo]⟩
  | succ fuel ih =>
    intro g hnd hc
    cases g with
    | nil =>
      rcases List.exists_mem_of_ne_nil c (cycle_ne_nil hc) with ⟨m, hm⟩
      have := cycle_mem_keys hc m hm
      simp [graphKeys] at this
    | cons p0 g' =>
      by_cases hbe : (readyNames (p0 :: g')).isEmpty = true
      · exact ⟨findCycle (p0 :: g'), by simp [kahnGo, hbe]⟩
      · rw [Bool.not_eq_true] at hbe
        rcases ih (nodup_keys_restGraph hnd) (cycle_restGraph hnd hc) with ⟨l, hl⟩
        refine ⟨l, ?_⟩
        simp only [kahnGo, hbe, Bool.false_eq_true, if_false, hl]

theorem iterList_concat (f : String → String) :
    ∀ (m : Nat) (y : String),
    iterList f y (m + 1) = iterList f y m ++ [f^[m + 1] y] := by
  intro m
  induction m with
  | zero => intro y; simp [iterList]
  | succ m ihm =>
    intro y
    have h1 : iterList f y (m + 1 + 1) = f y :: iterList f (f y) (m + 1) := rfl
    rw [h1, ihm (f y)]
    have h2 : f^[m + 1] (f y) = f^[m + 1 + 1] y :=
      (Function.iterate_succ_apply f (m + 1) y).symm
    rw [h2]
    rfl

theorem chain_iterList {R : String → String → Prop} {K : List String}
    {f : String → String} (hf : ∀ z ∈ K, R z (f z) ∧ f z ∈ K) :
    ∀ (m : Nat) (y : String), y ∈ K → List.Chain R y (iterList f y m) := by
  intro m
  induction m with
  | zero => intro y _; exact List.Chain.nil
  | succ m ihm =>
    intro y hy
    exact List.chain_cons.2 ⟨(hf y hy).1, ihm (f y) (hf y hy).2⟩

theorem iterate_mem {K : List String} {f : String → String}
    (hf : ∀ z ∈ K, f z ∈ K) {x : String} (hx : x ∈ K) :
    ∀ k : Nat, f^[k] x ∈ K := by
  intro k
  induction k with
  | zero => exact hx
  | succ k ihk =>
    rw [Function.iterate_succ_apply']
    exact hf _ ihk

/-- Two coinciding iterates of an everywhere-stepping function yield an
explicit dependency cycle: the segment of the orbit between them. -/
theorem cycle_of_iterate_eq {g : List (String × List String)}
    {f : String → String}
    (hf : ∀ a ∈ graphKeys g, Edge g a (f a) ∧ f a ∈ graphKeys g)
    {x : String} (hx : x ∈ graphKeys g) {i j : Nat} (hij : i < j)
    (heq : f^[i] x = f^[j] x) :
    CycleIn g (f^[i] x :: iterList f (f^[i] x) (j - i - 1)) := by
  have hstep : ∀ z ∈ graphKeys g, f z ∈ graphKeys g := fun z hz => (hf z hz).2
  have hy : f^[i] x ∈ graphKeys g := iterate_mem hstep hx i
  show List.Chain (Edge g) (f^[i] x)
    (iterList f (f^[i] x) (j - i - 1) ++ [f^[i] x])
  have hlast : f^[j - i - 1 + 1] (f^[i] x) = f^[i] x := by
    rw [← Function.iterate_add_apply]
    have hexp : j - i - 1 + 1 + i = j := by omega
    rw [hexp]
    exact heq.symm
  have hconcat := iterList_concat f (j - i - 1) (f^[i] x)
  rw [hlast] at hconcat
  rw [← hconcat]
  exact chain_iterList hf (j - i - 1 + 1) (f^[i] x) hy

/-- On a stuck graph, every key steps along `stepDep` to an unsatisfied
dependency that is again a key. -/
theorem stepDep_of_stuck {g : List (String × List String)}
    (hstuck : readyNames g = []) {a : String} (ha : a ∈ graphKeys g) :
    ∃ d, stepDep g a = some d ∧ Edge g a d ∧ d ∈ graphKeys g := by
  rcases mem_graphKeys.1 ha with ⟨p, hp, rfl⟩
  have hfind : ∃ q, (g.find? fun q => q.1 = p.1) = some q :=
    Option.isSome_iff_exists.1 (List.find?_isSome.2 ⟨p, hp, by simp⟩)
  rcases hfind with ⟨q, hq⟩
  have hq1 : q.1 = p.1 := by simpa using List.find?_some hq
  have hqg : q ∈ g := List.mem_of_find?_eq_some hq
  have hnr : ∃ d ∈ q.2, d ∈ graphKeys g := by
    by_contra hno
    push_neg at hno
    have hmem : q.1 ∈ readyNames g := mem_readyNames.2 ⟨q, hqg, rfl, hno⟩
    rw [hstuck] at hmem
    exact List.not_mem_nil _ hmem
  rcases hnr with ⟨d0, hd0, hd0k⟩
  have hfind2 : ∃ d, (q.2.find? fun d => decide (d ∈ graphKeys g)) = some d :=
    Option.isSome_iff_exists.1 (List.find?_isSome.2 ⟨d0, hd0, by simp [hd0k]⟩)
  rcases hfind2 with ⟨d, hd⟩
  have hdmem : d ∈ q.2 := List.mem_of_find?_eq_some hd
  have hdk : d ∈ graphKeys g := by simpa using List.find?_some hd
  refine ⟨d, ?_, ⟨q, hqg, hq1, hdmem, hdk⟩, hdk⟩
  rw [stepDep, hq]
  exact hd

theorem mem_repCandidates {N : Nat} {q : Nat × Nat} :
    q ∈ repCandidates N ↔ q.1 < q.2 ∧ q.2 ≤ N := by
  cases q with
  | mk i j =>
    simp only [repCandidates, List.mem_flatMap, List.mem_range, List.mem_map]
    constructor
    · rintro ⟨j', hj', i', hi', heq⟩
      rcases Prod.mk.injEq i' j' i j ▸ heq with ⟨rfl, rfl⟩
      exact ⟨hi', by omega⟩
    · rintro ⟨hij, hjN⟩
      exact ⟨j, by omega, i, hij, rfl⟩

theorem repPairs_some_spec {f : String → String} {x : String} {N i j : Nat}
    (h : repPairs f x N = some (i, j)) : i < j ∧ f^[i] x = f^[j] x := by
  have hmem := List.mem_of_find?_eq_some h
  have hpred := List.find?_some h
  exact ⟨(mem_repCandidates.1 hmem).1, by simpa using hpred⟩

/-- On a non-empty stuck graph `findCycle` returns a genuine non-empty
dependency cycle: the error names only implicated tasks. -/
theorem findCycle_sound {g : List (String × List String)}
    (hg : g ≠ []) (hstuck : readyNames g = []) :
    findCycle g ≠ [] ∧ CycleIn g (findCycle g) := by
  cases g with
  | nil => exact absurd rfl hg
  | cons p0 g' =>
    have hf : ∀ a ∈ graphKeys (p0 :: g'),
        Edge (p0 :: g') a (stepFun (p0 :: g') a) ∧
          stepFun (p0 :: g') a ∈ graphKeys (p0 :: g') := by
      intro a ha
      rcases stepDep_of_stuck hstuck ha with ⟨d, hsd, hedge, hdk⟩
      rw [stepFun, hsd]
      exact ⟨hedge, hdk⟩
    have hx : p0.1 ∈ graphKeys (p0 :: g') :=
      mem_graphKeys.2 ⟨p0, List.mem_cons_self _ _, rfl⟩
    have hmaps : ∀ k ∈ Finset.range ((graphKeys (p0 :: g')).length + 1),
        (stepFun (p0 :: g'))^[k] p0.1 ∈ (graphKeys (p0 :: g')).toFinset := by
      intro k _
      exact List.mem_toFinset.2 (iterate_mem (fun z hz => (hf z hz).2) hx k)
    have hcard : ((graphKeys (p0 :: g')).toFinset).card <
        (Finset.range ((graphKeys (p0 :: g')).length + 1)).card := by
      rw [Finset.card_range]
      exact Nat.lt_succ_of_le (List.toFinset_card_le _)
    rcases Finset.exists_ne_map_eq_of_card_lt_of_maps_to hcard hmaps with
      ⟨i, hi, j, hj, hne, heq⟩
    have hex : ∃ a b : Nat, a < b ∧ b ≤ (graphKeys (p0 :: g')).length ∧
        (stepFun (p0 :: g'))^[a] p0.1 = (stepFun (p0 :: g'))^[b] p0.1 := by
      rw [Finset.mem_range] at hi hj
      rcases Nat.lt_or_ge i j with hij | hij
      · exact ⟨i, j, hij, by omega, heq⟩
      · have hji : j < i := Nat.lt_of_le_of_ne hij fun h => hne h.symm
        exact ⟨j, i, hji, by omega, heq.symm⟩
    have hsome : ∃ q, repPairs (stepFun (p0 :: g')) p0.1
        (graphKeys (p0 :: g')).length = some q := by
      rcases hex with ⟨a, b, hab, hbN, habeq⟩
      exact Option.isSome_iff_exists.1 (List.find?_isSome.2
        ⟨(a, b), mem_repCandidates.2 ⟨hab, hbN⟩, by simp [habeq]⟩)
    rcases hsome with ⟨⟨i0, j0⟩, hq⟩
    rcases repPairs_some_spec hq with ⟨hij0, heq0⟩
    have hunfold : findCycle (p0 :: g') =
        (stepFun (p0 :: g'))^[i0] p0.1 ::
          iterList (stepFun (p0 :: g'))
            ((stepFun (p0 :: g'))^[i0] p0.1) (j0 - i0 - 1) := by
      rw [findCycle, hq]
    rw [hunfold]
    exact ⟨List.cons_ne_nil _ _, cycle_of_iterate_eq hf hx hij0 heq0⟩

/-- A non-empty graph on which no task is ready contains a dependency
cycle (Kahn stuck state ⇒ cycle). -/
theorem exists_cycle_of_stuck {g : List (String × List String)}
    (hg : g ≠ []) (hb : readyNames g = []) : ∃ c, CycleIn g c :=
  ⟨findCycle g, (findCycle_sound hg hb).2⟩

/-- With enough fuel (the graph's size suffices), an acyclic graph is
fully scheduled without error. -/
theorem kahnGo_ok_of_acyclic {fuel : Nat} :
    ∀ {g : List (String × List String)}, g.length ≤ fuel →
    (graphKeys g).Nodup → (∀ c, ¬ CycleIn g c) →
    ∃ bs, kahnGo fuel g = .ok bs := by
  induction fuel with
  | zero =>
    intro g hlen _ _
    have : g = [] := List.length_eq_zero.1 (Nat.le_zero.1 hlen)
    subst this
    exact ⟨[], kahnGo_nil⟩
  | succ fuel ih =>
    intro g hlen hnd hacyc
    cases g with
    | nil => exact ⟨[], kahnGo_nil⟩
    | cons p0 g' =>
      by_cases hbe : (readyNames (p0 :: g')).isEmpty = true
      · rcases exists_cycle_of_stuck (List.cons_ne_nil p0 g')
          (List.isEmpty_iff.1 hbe) with ⟨c, hc⟩
        exact absurd hc (hacyc c)
      · rw [Bool.not_eq_true] at hbe
        have hlt : (restGraph (p0 :: g') (readyNames (p0 :: g'))).length <
            (p0 :: g').length :=
          restGraph_length_lt (by rw [hbe]; exact Bool.false_ne_true)
        have hacyc' : ∀ c, ¬ CycleIn (restGraph (p0 :: g') (readyNames (p0 :: g'))) c := by
          intro c hc
          refine hacyc c ?_
          have hedge : ∀ a b : String,
              Edge (restGraph (p0 :: g') (readyNames (p0 :: g'))) a b →
              Edge (p0 :: g') a b := by
            intro a b hR
            rcases hR with ⟨p, hpr, rfl, hbp, hbk⟩
            exact ⟨p, (mem_restGraph.1 hpr).1, rfl, hbp,
              (keys_restGraph.1 hbk).1⟩
          cases c with
          | nil => cases hc
          | cons n rest => exact List.Chain.imp hedge hc
        rcases ih (by omega) (nodup_keys_restGraph hnd) hacyc' with ⟨bs', hbs'⟩
        refine ⟨readyNames (p0 :: g') :: bs', ?_⟩
        simp only [kahnGo, hbe, Bool.false_eq_true, if_false, hbs']

/-- A successful Kahn run certifies acyclicity: batch indices strictly
decrease along dependency edges, so no cycle can exist. -/
theorem acyclic_of_kahnGo_ok {fuel : Nat} {g : List (String × List String)}
    {bs : List (List String)} (hnd : (graphKeys g).Nodup)
    (h : kahnGo fuel g = .ok bs) : ∀ c, ¬ CycleIn g c := by
  have hE : ∀ a b : String, Edge g a b →
      ∃ i j, batchIdx bs b = some i ∧ batchIdx bs a = some j ∧ i < j := by
    intro a b hR
    rcases hR with ⟨p, hp, rfl, hbp, hbk⟩
    exact kahnGo_ok_dep_lt hnd h p hp b hbp hbk
  have hchain : ∀ (l : List String) (a : String), List.Chain (Edge g) a l →
      ∀ hne : l ≠ [],
      ∃ ia il, batchIdx bs (l.getLast hne) = some il ∧
        batchIdx bs a = some ia ∧ il < ia := by
    intro l
    induction l with
    | nil => intro a _ hne; exact absurd rfl hne
    | cons x l' ih =>
      intro a hch hne
      rcases List.chain_cons.1 hch with ⟨hax, hch'⟩
      cases l' with
      | nil =>
        rcases hE a x hax with ⟨i, j, hi, hj, hij⟩
        exact ⟨j, i, by simpa using hi, hj, hij⟩
      | cons y l'' =>
        rcases ih x hch' (List.cons_ne_nil y l'') with ⟨ix, il, hlast, hx, hlt⟩
        rcases hE a x hax with ⟨i, j, hi, hj, hij⟩
        rw [hx] at hi
        cases Option.some.inj hi
        refine ⟨j, il, ?_, hj, Nat.lt_trans hlt hij⟩
        rw [List.getLast_cons (List.cons_ne_nil y l'')]
        exact hlast
  intro c hc
  cases c with
  | nil => cases hc
  | cons n rest =>
    have hch : List.Chain (Edge g) n (rest ++ [n]) := hc
    rcases hchain (rest ++ [n]) n hch (by simp) with ⟨ia, il, hlast, ha, hlt⟩
    rw [List.getLast_concat] at hlast
    rw [hlast] at ha
    have : il = ia := Option.some.inj ha
    omega

theorem kahnGo_succ_error {fuel : Nat} {p0 : String × List String}
    {g' : List (String × List String)} {l : List String}
    (h : kahnGo (fuel + 1) (p0 :: g') = .error l) :
    ((readyNames (p0 :: g')).isEmpty = true ∧ l = findCycle (p0 :: g')) ∨
    ((readyNames (p0 :: g')).isEmpty = false ∧
      kahnGo fuel (restGraph (p0 :: g') (readyNames (p0 :: g'))) = .error l) := by
  by_cases hbe : (readyNames (p0 :: g')).isEmpty = true
  · refine Or.inl ⟨hbe, ?_⟩
    simp only [kahnGo, hbe, if_true] at h
    exact (Except.error.inj h).symm
  · rw [Bool.not_eq_true] at hbe
    refine Or.inr ⟨hbe, ?_⟩
    cases hrec : kahnGo fuel (restGraph (p0 :: g') (readyNames (p0 :: g'))) with
    | ok bs' =>
      simp only [kahnGo, hbe, Bool.false_eq_true, if_false, hrec] at h
      exact Except.noConfusion h
    | error l' =>
      simp only [kahnGo, hbe, Bool.false_eq_true, if_false, hrec] at h
      rw [Except.error.inj h]

/-- With enough fuel (the graph's size suffices, and `kahnBatches`
supplies it), an error's payload is a genuine non-empty dependency cycle
of the graph: the reported tasks are implicated ones. -/
theorem kahnGo_error_cycle_payload {fuel : Nat} :
    ∀ {g : List (String × List String)} {l : List String},
    (graphKeys g).Nodup → g.length ≤ fuel → kahnGo fuel g = .error l →
    l ≠ [] ∧ CycleIn g l := by
  induction fuel with
  | zero =>
    intro g l _ hlen h
    have hnil : g = [] := List.length_eq_zero.1 (Nat.le_zero.1 hlen)
    subst hnil
    rw [kahnGo_nil] at h
    exact Except.noConfusion h
  | succ fuel ih =>
    intro g l hnd hlen h
    cases g with
    | nil =>
      rw [kahnGo_nil] at h
      exact Except.noConfusion h
    | cons p0 g' =>
      rcases kahnGo_succ_error h with ⟨hbe, rfl⟩ | ⟨hbe, hrec⟩
      · exact findCycle_sound (List.cons_ne_nil p0 g') (List.isEmpty_iff.1 hbe)
      · have hlt : (restGraph (p0 :: g') (readyNames (p0 :: g'))).length <
            (p0 :: g').length :=
          restGraph_length_lt (by rw [hbe]; exact Bool.false_ne_true)
        rcases ih (nodup_keys_restGraph hnd) (by omega) hrec with ⟨hne, hcyc⟩
        exact ⟨hne, cycleIn_of_restGraph hcyc⟩

/-! ### Bridging `schedule_tasks` to the Kahn-loop lemmas -/

/-- The restricted dependency graph a call of `schedule_tasks` operates on. -/
def scheduleGraph (tasks : List SchedTask) (filt : Option (List String)) :
    List (String × List String) :=
  buildGraph (selectTasks tasks filt)

theorem schedule_tasks_eq_kahn (tasks : List SchedTask)
    (filt : Option (List String)) :
    schedule_tasks tasks filt =
      kahnGo (scheduleGraph tasks filt).length (scheduleGraph tasks filt) := rfl

theorem graphKeys_buildGraph (ts : List SchedTask) :
    graphKeys (buildGraph ts) = ts.map SchedTask.name := by
  simp [graphKeys, buildGraph, List.map_map, Function.comp]

theorem mem_dedupFirstGo :
    ∀ {l seen : List String} {x : String},
    x ∈ dedupFirstGo seen l ↔ x ∈ l ∧ x ∉ seen := by
  intro l
  induction l with
  | nil => intro seen x; simp [dedupFirstGo]
  | cons a l' ih =>
    intro seen x
    by_cases ha : a ∈ seen
    · rw [show dedupFirstGo seen (a :: l') = dedupFirstGo seen l' by
        simp [dedupFirstGo, ha]]
      rw [ih]
      constructor
      · rintro ⟨hx, hns⟩; exact ⟨List.mem_cons_of_mem a hx, hns⟩
      · rintro ⟨hx, hns⟩
        rcases List.mem_cons.1 hx with rfl | hx'
        · exact absurd ha hns
        · exact ⟨hx', hns⟩
    · rw [show dedupFirstGo seen (a :: l') = a :: dedupFirstGo (a :: seen) l' by
        simp [dedupFirstGo, ha]]
      constructor
      · intro hx
        rcases List.mem_cons.1 hx with rfl | hx'
        · exact ⟨List.mem_cons_self _ _, ha⟩
        · rcases ih.1 hx' with ⟨hl, hns⟩
          exact ⟨List.mem_cons_of_mem a hl,
            fun hs => hns (List.mem_cons_of_mem a hs)⟩
      · rintro ⟨hx, hns⟩
        by_cases hxa : x = a
        · exact hxa ▸ List.mem_cons_self _ _
        · rcases List.mem_cons.1 hx with rfl | hx'
          · exact absurd rfl hxa
          · refine List.mem_cons_of_mem a (ih.2 ⟨hx', ?_⟩)
            intro hs
            rcases List.mem_cons.1 hs with rfl | hs'
            · exact hxa rfl
            · exact hns hs'

theorem mem_dedupFirst {l : List String} {x : String} :
    x ∈ dedupFirst l ↔ x ∈ l := by
  rw [dedupFirst, mem_dedupFirstGo]
  simp

theorem nodup_dedupFirstGo :
    ∀ {l seen : List String}, (dedupFirstGo seen l).Nodup := by
  intro l
  induction l with
  | nil => intro seen; exact List.nodup_nil
  | cons a l' ih =>
    intro seen
    by_cases ha : a ∈ seen
    · rw [show dedupFirstGo seen (a :: l') = dedupFirstGo seen l' by
        simp [dedupFirstGo, ha]]
      exact ih
    · rw [show dedupFirstGo seen (a :: l') = a :: dedupFirstGo (a :: seen) l' by
        simp [dedupFirstGo, ha]]
      refine List.nodup_cons.2 ⟨?_, ih⟩
      intro hmem
      exact (mem_dedupFirstGo.1 hmem).2 (List.mem_cons_self _ _)

theorem nodup_dedupFirst (l : List String) : (dedupFirst l).Nodup :=
  nodup_dedupFirstGo

theorem map_name_filterMap_find? (ts : List SchedTask) :
    ∀ nl : List String,
    (∀ n ∈ nl, (ts.find? fun t => t.name = n).isSome = true) →
    ((nl.filterMap fun n => ts.find? fun t => t.name = n).map SchedTask.name) = nl := by
  intro nl
  induction nl with
  | nil => intro _; rfl
  | cons n nl' ih =>
    intro hall
    rcases Option.isSome_iff_exists.1 (hall n (List.mem_cons_self _ _)) with ⟨t, ht⟩
    have hname : t.name = n := by
      have := List.find?_some ht
      simpa using this
    rw [List.filterMap_cons, ht, List.map_cons, hname,
      ih fun m hm => hall m (List.mem_cons_of_mem n hm)]

theorem selectTasks_some_map_name (ts : List SchedTask) (filt : List String) :
    (selectTasks ts (some filt)).map SchedTask.name =
      dedupFirst (filt.filter fun n => ts.any fun t => t.name = n) := by
  apply map_name_filterMap_find?
  intro n hn
  have hmem := mem_dedupFirst.1 hn
  have hany : (ts.any fun t => t.name = n) = true := (List.mem_filter.1 hmem).2
  rcases List.any_eq_true.1 hany with ⟨t, ht, hts⟩
  exact List.find?_isSome.2 ⟨t, ht, hts⟩

theorem selectTasks_some_names_nodup (ts : List SchedTask) (filt : List String) :
    ((selectTasks ts (some filt)).map SchedTask.name).Nodup := by
  rw [selectTasks_some_map_name]
  exact nodup_dedupFirst _

theorem mem_selectTasks_some {ts : List SchedTask} {filt : List String}
    {t : SchedTask} (h : t ∈ selectTasks ts (some filt)) :
    t ∈ ts ∧ t.name ∈ filt := by
  rcases List.mem_filterMap.1 h with ⟨n, hn, hfind⟩
  have hts : t ∈ ts := List.mem_of_find?_eq_some hfind
  have hname : t.name = n := by
    have := List.find?_some hfind
    simpa using this
  have hfilt : n ∈ filt := by
    have := mem_dedupFirst.1 hn
    exact (List.mem_filter.1 this).1
  exact ⟨hts, hname ▸ hfilt⟩

theorem mem_scheduleGraph_row {tasks : List SchedTask} {filt : Option (List String)}
    {t : SchedTask} (h : t ∈ selectTasks tasks filt) :
    (t.name, t.depends_on.filter fun d =>
      (selectTasks tasks filt).any fun u => u.name = d) ∈ scheduleGraph tasks filt := by
  exact List.mem_map_of_mem _ h

theorem mem_row_deps {sel : List SchedTask} {t : SchedTask} {d : String} :
    (d ∈ t.depends_on.filter fun e => sel.any fun u => u.name = e) ↔
      d ∈ t.depends_on ∧ d ∈ sel.map SchedTask.name := by
  rw [List.mem_filter]
  constructor
  · rintro ⟨hd, hany⟩
    rcases List.any_eq_true.1 hany with ⟨u, hu, hud⟩
    refine ⟨hd, ?_⟩
    have : u.name = d := by simpa using hud
    exact this ▸ List.mem_map_of_mem SchedTask.name hu
  · rintro ⟨hd, hmem⟩
    rcases List.mem_map.1 hmem with ⟨u, hu, hud⟩
    exact ⟨hd, List.any_eq_true.2 ⟨u, hu, by simp [hud]⟩⟩

theorem keys_scheduleGraph (tasks : List SchedTask) (filt : Option (List String)) :
    graphKeys (scheduleGraph tasks filt) =
      (selectTasks tasks filt).map SchedTask.name :=
  graphKeys_buildGraph _

/-- A successful schedule certifies that the restricted dependency graph
was acyclic. -/
theorem acyclic_of_schedule_ok {tasks : List SchedTask}
    {filt : Option (List String)} {bs : List (List String)}
    (hnd : ((selectTasks tasks filt).map SchedTask.name).Nodup)
    (h : schedule_tasks tasks filt = .ok bs) :
    ∀ c, ¬ CycleIn (scheduleGraph tasks filt) c :=
  acyclic_of_kahnGo_ok ((keys_scheduleGraph tasks filt).symm ▸ hnd)
    (schedule_tasks_eq_kahn tasks filt ▸ h)

/-- C1: for every acyclic task set (optionally filtered, edges restricted
to the set), `schedule_tasks` succeeds and returns batches in which
(a) every scheduled task appears in exactly one batch and batches contain
only scheduled tasks, (b) a task's batch index is strictly greater than
that of each of its in-set dependencies, and (c) each batch is maximal: a
task whose in-set dependencies all lie in batches before index `i` is
placed no later than batch `i`. -/
theorem schedule_tasks_batches_correct (tasks : List SchedTask)
    (filt : Option (List String))
    (hnd : ((selectTasks tasks filt).map SchedTask.name).Nodup)
    (hacyc : ∀ c, ¬ CycleIn (scheduleGraph tasks filt) c) :
    ∃ bs, schedule_tasks tasks filt = .ok bs ∧
      (∀ t ∈ selectTasks tasks filt,
        bs.countP (fun b => decide (t.name ∈ b)) = 1) ∧
      (∀ b ∈ bs, b.Nodup ∧
        ∀ n ∈ b, n ∈ (selectTasks tasks filt).map SchedTask.name) ∧
      (∀ t ∈ selectTasks tasks filt, ∀ d ∈ t.depends_on,
        d ∈ (selectTasks tasks filt).map SchedTask.name →
        ∃ i j, batchIdx bs d = some i ∧ batchIdx bs t.name = some j ∧ i < j) ∧
      (∀ t ∈ selectTasks tasks filt, ∀ i : Nat,
        (∀ d ∈ t.depends_on,
          d ∈ (selectTasks tasks filt).map SchedTask.name →
          ∃ jd, batchIdx bs d = some jd ∧ jd < i) →
        ∃ k, batchIdx bs t.name = some k ∧ k ≤ i) := by
  have hkeys := keys_scheduleGraph tasks filt
  have hndk : (graphKeys (scheduleGraph tasks filt)).Nodup := hkeys.symm ▸ hnd
  rcases kahnGo_ok_of_acyclic (Nat.le_refl _) hndk hacyc with ⟨bs, hbs⟩
  refine ⟨bs, schedule_tasks_eq_kahn tasks filt ▸ hbs, ?_, ?_, ?_, ?_⟩
  · intro t ht
    have hcnt := kahnGo_ok_countP hndk hbs t.name
    rw [hcnt, if_pos]
    rw [hkeys]
    exact List.mem_map_of_mem SchedTask.name ht
  · intro b hb
    refine ⟨kahnGo_ok_batch_nodup hndk hbs b hb, ?_⟩
    intro n hn
    have : n ∈ bs.flatten := List.mem_flatten.2 ⟨b, hb, hn⟩
    rw [kahnGo_ok_mem_flatten hndk hbs n, hkeys] at this
    exact this
  · intro t ht d hd hdk
    have hrow := mem_scheduleGraph_row ht
    have hdrow : d ∈ t.depends_on.filter fun e =>
        (selectTasks tasks filt).any fun u => u.name = e :=
      mem_row_deps.2 ⟨hd, hdk⟩
    exact kahnGo_ok_dep_lt hndk hbs _ hrow d hdrow (hkeys ▸ hdk)
  · intro t ht i hyp
    have hrow := mem_scheduleGraph_row ht
    refine kahnGo_ok_maximal hndk hbs _ hrow i ?_
    intro d hdrow hkd
    rcases mem_row_deps.1 hdrow with ⟨hd, hdn⟩
    exact hyp d hd hdn

/-- C6 (amended): a dependency cycle inside the scheduled set (a
self-dependency or any longer cycle) makes `schedule_tasks` fail — it
terminates with a cycle error and never returns batches from which the
cyclic tasks were silently dropped — and the error's content names the
implicated tasks of one detected cycle: the payload is itself a non-empty
dependency cycle of the restricted graph.  As in `graphlib`, when several
disjoint cycles exist only the one detected cycle is reported. -/
theorem schedule_tasks_cycle_error (tasks : List SchedTask)
    (filt : Option (List String)) (c : List String)
    (hnd : ((selectTasks tasks filt).map SchedTask.name).Nodup)
    (hc : CycleIn (scheduleGraph tasks filt) c) :
    ∃ l, schedule_tasks tasks filt = .error l ∧ l ≠ [] ∧
      CycleIn (scheduleGraph tasks filt) l := by
  have hndk : (graphKeys (scheduleGraph tasks filt)).Nodup :=
    (keys_scheduleGraph tasks filt).symm ▸ hnd
  rcases kahnGo_error_of_cycle (scheduleGraph tasks filt).length hndk hc with
    ⟨l, hl⟩
  rcases kahnGo_error_cycle_payload hndk (Nat.le_refl _) hl with ⟨hne, hcyc⟩
  exact ⟨l, schedule_tasks_eq_kahn tasks filt ▸ hl, hne, hcyc⟩

/-- C7: under a task filter, retained dependency edges always point inside
the scheduled subset (edges to outside tasks are dropped, never an error:
a failure can only come from a cycle within the subset), and the returned
batches contain only names from the filter that exist in the config. -/
theorem schedule_tasks_filter_semantics (tasks : List SchedTask)
    (filt : List String) :
    (∀ p ∈ scheduleGraph tasks (some filt), ∀ d ∈ p.2,
      d ∈ (selectTasks tasks (some filt)).map SchedTask.name) ∧
    (∀ bs, schedule_tasks tasks (some filt) = .ok bs →
      ∀ b ∈ bs, ∀ n ∈ b, n ∈ filt ∧ n ∈ tasks.map SchedTask.name) ∧
    (∀ l, schedule_tasks tasks (some filt) = .error l →
      ∃ c, CycleIn (scheduleGraph tasks (some filt)) c) := by
  have hnd : ((selectTasks tasks (some filt)).map SchedTask.name).Nodup :=
    selectTasks_some_names_nodup tasks filt
  have hndk : (graphKeys (scheduleGraph tasks (some filt))).Nodup :=
    (keys_scheduleGraph tasks (some filt)).symm ▸ hnd
  refine ⟨?_, ?_, ?_⟩
  · intro p hp d hd
    rcases List.mem_map.1 hp with ⟨t, ht, rfl⟩
    exact (mem_row_deps.1 hd).2
  · intro bs hbs b hb n hn
    have hflat : n ∈ bs.flatten := List.mem_flatten.2 ⟨b, hb, hn⟩
    rw [kahnGo_ok_mem_flatten hndk (schedule_tasks_eq_kahn tasks (some filt) ▸ hbs) n,
      keys_scheduleGraph] at hflat
    rcases List.mem_map.1 hflat with ⟨t, ht, rfl⟩
    rcases mem_selectTasks_some ht with ⟨hts, htf⟩
    exact ⟨htf, List.mem_map_of_mem SchedTask.name hts⟩
  · intro l hl
    by_contra hno
    push_neg at hno
    rcases kahnGo_ok_of_acyclic (Nat.le_refl _) hndk
      (fun c hc => hno c hc) with ⟨bs, hbs⟩
    rw [schedule_tasks_eq_kahn tasks (some filt), hbs] at hl
    exact Except.noConfusion hl

/-! ### Concrete inputs for the scheduler witnesses -/

/-- The spec's concrete scenario 1: `a`, `b` (dep `a`), `c` (dep `a`),
`d` (dep `b`, `c`). -/
def demoTasks : List SchedTask :=
  [⟨"a", "", []⟩, ⟨"b", "", ["a"]⟩, ⟨"c", "", ["a"]⟩, ⟨"d", "", ["b", "c"]⟩]

/-- The spec's concrete scenario 2: a self-dependency. -/
def selfDepTasks : List SchedTask := [⟨"a", "", ["a"]⟩]

/-- A two-node dependency cycle. -/
def twoCycleTasks : List SchedTask := [⟨"a", "", ["b"]⟩, ⟨"b", "", ["a"]⟩]

theorem schedule_tasks_batches_correct_witness :
    ∃ bs, schedule_tasks demoTasks none = .ok bs ∧
      (∀ t ∈ selectTasks demoTasks none,
        bs.countP (fun b => decide (t.name ∈ b)) = 1) ∧
      (∀ b ∈ bs, b.Nodup ∧
        ∀ n ∈ b, n ∈ (selectTasks demoTasks none).map SchedTask.name) ∧
      (∀ t ∈ selectTasks demoTasks none, ∀ d ∈ t.depends_on,
        d ∈ (selectTasks demoTasks none).map SchedTask.name →
        ∃ i j, batchIdx bs d = some i ∧ batchIdx bs t.name = some j ∧ i < j) ∧
      (∀ t ∈ selectTasks demoTasks none, ∀ i : Nat,
        (∀ d ∈ t.depends_on,
          d ∈ (selectTasks demoTasks none).map SchedTask.name →
          ∃ jd, batchIdx bs d = some jd ∧ jd < i) →
        ∃ k, batchIdx bs t.name = some k ∧ k ≤ i) :=
  schedule_tasks_batches_correct demoTasks none (by decide)
    (acyclic_of_schedule_ok (by decide)
      (show schedule_tasks demoTasks none = .ok [["a"], ["b", "c"], ["d"]] from rfl))

theorem schedule_tasks_cycle_error_witness :
    (∃ l, schedule_tasks selfDepTasks none = .error l ∧ l ≠ [] ∧
      CycleIn (scheduleGraph selfDepTasks none) l) ∧
    (∃ l, schedule_tasks twoCycleTasks none = .error l ∧ l ≠ [] ∧
      CycleIn (scheduleGraph twoCycleTasks none) l) :=
  ⟨schedule_tasks_cycle_error selfDepTasks none ["a"] (by decide) (by decide),
   schedule_tasks_cycle_error twoCycleTasks none ["a", "b"] (by decide) (by decide)⟩

/-- Two disjoint two-task cycles: `a ↔ b` and `c ↔ d`. -/
def twoDisjointCycleTasks : List SchedTask :=
  [⟨"a", "", ["b"]⟩, ⟨"b", "", ["a"]⟩, ⟨"c", "", ["d"]⟩, ⟨"d", "", ["c"]⟩]

/-- C6 counterexample: with two disjoint cycles `a ↔ b` and `c ↔ d` all
four tasks are implicated, but the cycle error re-raised from the sorter
names only the members of the one detected cycle — here `a` and `b` — so
the error's content does not name the implicated tasks `c` and `d`, as
the claim as stated would require. -/
theorem schedule_tasks_cycle_error_counterexample :
    CycleIn (scheduleGraph twoDisjointCycleTasks none) ["a", "b"] ∧
    CycleIn (scheduleGraph twoDisjointCycleTasks none) ["c", "d"] ∧
    ∃ l, schedule_tasks twoDisjointCycleTasks none = .error l ∧
      ¬ ("a" ∈ l ∧ "b" ∈ l ∧ "c" ∈ l ∧ "d" ∈ l) := by
  refine ⟨by decide, by decide, ["a", "b"], ?_, by decide⟩
  rfl

/-- The spec's concrete scenario 3: `a`, `b` (dep `a`), `c` (dep `a`). -/
def filterDemoTasks : List SchedTask :=
  [⟨"a", "", []⟩, ⟨"b", "", ["a"]⟩, ⟨"c", "", ["a"]⟩]

theorem schedule_tasks_filter_semantics_witness :
    ("a" ∈ (["a", "b"] : List String) ∧
      "a" ∈ filterDemoTasks.map SchedTask.name) ∧
    schedule_tasks filterDemoTasks (some ["a", "b"]) = .ok [["a"], ["b"]] :=
  ⟨(schedule_tasks_filter_semantics filterDemoTasks ["a", "b"]).2.1
      [["a"], ["b"]] rfl ["a"] (by decide) "a" (by decide),
   rfl⟩

/-! ## Orchestrator state machine (`hooks/orchestrate.py`)

Task records are embedded with exactly the fields the verified code paths
read or write; opaque fields the claims never mention (description, agent,
branch, worktree path, last commit) are omitted.  The `[:500]` truncation
of gate output stored in `last_error` is embedded as a list-level `take`
on the string's characters. -/

/-- `TaskStatus` of `orchestrate.py`. -/
inductive OTaskStatus
  | pending
  | dispatched
  | completed
  | passed
  | failed
  | skipped
deriving Repr, DecidableEq

/-- `GateStatus` of `orchestrate.py`. -/
inductive OGateStatus
  | not_run
  | passed
  | failed
  | skipped
deriving Repr, DecidableEq

/-- A task record of `OrchestratorStatus.tasks`. -/
structure OTask where
  name : String
  layer : String
  depends_on : List String := []
  requirements : List String := []
  status : OTaskStatus := .pending
  iteration : Nat := 0
  last_error : Option String := none
deriving Repr, DecidableEq

/-- A gate record of `OrchestratorStatus.gates`. -/
structure OGate where
  name : String
  status : OGateStatus := .not_run
deriving Repr, DecidableEq

/-- The durable orchestrator snapshot (`OrchestratorStatus`), restricted
to the fields the verified transitions read. -/
structure OrchestratorStatus where
  design_doc_hash : String
  current_layer : String
  tasks : List OTask := []
  gates : List OGate := []
  iteration : Nat := 0
  max_iterations : Nat := 5
  max_parallel : Nat := 4
deriving Repr, DecidableEq

/-- The fixed layer vocabulary (`schema.LAYERS`), in definition order. -/
def LAYERS : List String :=
  ["requirements", "architecture", "tdd", "implementation", "static_analysis",
   "formal_verification", "dynamic_analysis", "review", "safety"]

/-- Dependency check of `get_ready_tasks`:
`status.tasks.get(dep, {}).get("status") == TaskStatus.PASSED.value`. -/
def depSatisfied (s : OrchestratorStatus) (d : String) : Bool :=
  match s.tasks.find? fun u => u.name = d with
  | some dt => dt.status = OTaskStatus.passed
  | none => false

/-- `get_ready_tasks`: pending tasks of the current layer whose
dependencies are all `passed`, truncated to `max_parallel`. -/
def get_ready_tasks (s : OrchestratorStatus) : List String :=
  ((s.tasks.filter fun t =>
      t.layer = s.current_layer && t.status = OTaskStatus.pending &&
        t.depends_on.all (depSatisfied s)).map OTask.name).take s.max_parallel

/-- The per-task update of the gate-failure branch of
`handle_stop_event`/`handle_subagent_stop`: a `completed` task of the
failed layer has its iteration incremented and becomes `failed` when the
new iteration reaches `max_iterations`, else returns to `pending`. -/
def gate_fail_update (layer : String) (max_iterations : Nat) (output : String)
    (t : OTask) : OTask :=
  if t.layer = layer ∧ t.status = OTaskStatus.completed then
    { t with
      iteration := t.iteration + 1
      status := if max_iterations ≤ t.iteration + 1 then OTaskStatus.failed
                else OTaskStatus.pending
      last_error := some ⟨output.data.take 500⟩ }
  else t

/-- The whole gate-failure loop over `status.tasks`. -/
def apply_gate_failure (layer : String) (max_iterations : Nat) (output : String)
    (tasks : List OTask) : List OTask :=
  tasks.map (gate_fail_update layer max_iterations output)

/-- One full retry round for a single task of the failing layer: a
`pending` task is re-dispatched and completes (status back to
`completed`), then the layer gate fails again.  A task in any other
status — in particular terminal `failed` — is not re-dispatched
(`get_ready_tasks` selects only `pending` tasks) and is left untouched by
the gate-failure loop (which only matches `completed`). -/
def retryRound (layer : String) (max_iterations : Nat) (output : String)
    (t : OTask) : OTask :=
  gate_fail_update layer max_iterations output
    (if t.status = OTaskStatus.pending then { t with status := .completed } else t)

/-- A task of the design document as read by `init_status_from_design`. -/
structure DesignTask where
  name : String
  layer : String
  depends_on : List String := []
  requirements : List String := []
deriving Repr, DecidableEq

/-- The validated design document fields `init_status_from_design` reads. -/
structure Design where
  project_name : String
  max_iterations : Nat := 5
  max_parallel : Nat := 4
  tasks : List DesignTask := []
deriving Repr, DecidableEq

/-- `init_status_from_design`: fresh status from the document — every task
`pending` at iteration 0, every gate `not_run`, current layer
`"requirements"`. -/
def init_status_from_design (design_hash : String) (d : Design) :
    OrchestratorStatus :=
  { design_doc_hash := design_hash
    current_layer := "requirements"
    tasks := d.tasks.map fun t =>
      { name := t.name
        layer := t.layer
        depends_on := t.depends_on
        requirements := t.requirements
        status := .pending
        iteration := 0
        last_error := none }
    gates := LAYERS.map fun l => { name := l, status := .not_run }
    iteration := 0
    max_iterations := d.max_iterations
    max_parallel := d.max_parallel }

/-- Step 3 of `handle_stop_event`: the persisted status is used unchanged
when its stored hash matches the document's current hash, otherwise (or
when nothing is persisted) a fresh status is initialized from the
document. -/
def load_or_init (persisted : Option OrchestratorStatus) (current_hash : String)
    (d : Design) : OrchestratorStatus :=
  match persisted with
  | some st =>
    if st.design_doc_hash = current_hash then st
    else init_status_from_design current_hash d
  | none => init_status_from_design current_hash d

/-! ### Orchestrator theorems -/

theorem mem_get_ready_tasks {s : OrchestratorStatus} {n : String}
    (h : n ∈ get_ready_tasks s) :
    ∃ t ∈ s.tasks, t.name = n ∧ t.layer = s.current_layer ∧
      t.status = OTaskStatus.pending ∧
      ∀ d ∈ t.depends_on, depSatisfied s d = true := by
  have hmem : n ∈ (s.tasks.filter fun t =>
      t.layer = s.current_layer && t.status = OTaskStatus.pending &&
        t.depends_on.all (depSatisfied s)).map OTask.name := by
    have := List.take_subset s.max_parallel
      ((s.tasks.filter fun t =>
        t.layer = s.current_layer && t.status = OTaskStatus.pending &&
          t.depends_on.all (depSatisfied s)).map OTask.name)
    exact this h
  rcases List.mem_map.1 hmem with ⟨t, htf, rfl⟩
  rcases List.mem_filter.1 htf with ⟨hts, hcond⟩
  simp only [Bool.and_eq_true, decide_eq_true_eq, List.all_eq_true] at hcond
  exact ⟨t, hts, rfl, hcond.1.1, hcond.1.2, hcond.2⟩

/-- C10: `get_ready_tasks` returns only names of `pending` tasks of the
current layer, and never more than `max_parallel` of them. -/
theorem get_ready_tasks_spec (s : OrchestratorStatus) :
    (∀ n ∈ get_ready_tasks s, ∃ t ∈ s.tasks, t.name = n ∧
      t.layer = s.current_layer ∧ t.status = OTaskStatus.pending) ∧
    (get_ready_tasks s).length ≤ s.max_parallel := by
  constructor
  · intro n hn
    rcases mem_get_ready_tasks hn with ⟨t, hts, rfl, hlayer, hstatus, -⟩
    exact ⟨t, hts, rfl, hlayer, hstatus⟩
  · exact (List.length_take _ _).le.trans (Nat.min_le_left _ _)

/-- C5: every task selected as ready for dispatch has all its
dependencies resolved to a task whose status is `passed` (hence passed or
skipped): a task is never dispatched with an unsatisfied dependency. -/
theorem get_ready_tasks_deps_satisfied (s : OrchestratorStatus) :
    ∀ n ∈ get_ready_tasks s, ∃ t ∈ s.tasks, t.name = n ∧
      ∀ d ∈ t.depends_on, ∃ dt,
        (s.tasks.find? fun u => u.name = d) = some dt ∧
        (dt.status = OTaskStatus.passed ∨ dt.status = OTaskStatus.skipped) := by
  intro n hn
  rcases mem_get_ready_tasks hn with ⟨t, hts, rfl, -, -, hdeps⟩
  refine ⟨t, hts, rfl, ?_⟩
  intro d hd
  have hds := hdeps d hd
  unfold depSatisfied at hds
  cases hf : s.tasks.find? fun u => u.name = d with
  | none => rw [hf] at hds; cases hds
  | some dt =>
    rw [hf] at hds
    simp only [decide_eq_true_eq] at hds
    exact ⟨dt, rfl, Or.inl hds⟩

theorem retryRound_traj (layer : String) (maxIt : Nat) (out : String)
    (t : OTask) (hmax : 1 ≤ maxIt)
    (hl : t.layer = layer) (hs : t.status = OTaskStatus.completed)
    (hi : t.iteration = 0) :
    ∀ k : Nat, ((retryRound layer maxIt out)^[k]) t =
      if k = 0 then t
      else if k < maxIt then
        { t with iteration := k, status := .pending,
                 last_error := some ⟨out.data.take 500⟩ }
      else
        { t with iteration := maxIt, status := .failed,
                 last_error := some ⟨out.data.take 500⟩ } := by
  intro k
  induction k with
  | zero => simp
  | succ k ihk =>
    rw [Function.iterate_succ_apply', ihk]
    by_cases hk0 : k = 0
    · subst hk0
      rcases Nat.lt_or_ge 1 maxIt with h1 | h1
      · have hnle : ¬ maxIt ≤ 0 + 1 := by omega
        simp [retryRound, gate_fail_update, hs, hl, hi, hnle, h1]
      · have hm1 : maxIt ≤ 0 + 1 := by omega
        have hnlt : ¬ (1 < maxIt) := by omega
        have hme : maxIt = 1 := by omega
        subst hme
        simp [retryRound, gate_fail_update, hs, hl, hi]
    · rcases Nat.lt_or_ge k maxIt with hk | hk
      · rw [if_neg hk0, if_pos hk]
        rcases Nat.lt_or_ge (k + 1) maxIt with hk1 | hk1
        · have hnle : ¬ maxIt ≤ k + 1 := by omega
          have hns : k + 1 ≠ 0 := by omega
          simp [retryRound, gate_fail_update, hl, hnle, hk1, hns]
        · have hmle : maxIt ≤ k + 1 := hk1
          have hmeq : maxIt = k + 1 := by omega
          have hns : k + 1 ≠ 0 := by omega
          have hnlt : ¬ (k + 1 < maxIt) := by omega
          simp [retryRound, gate_fail_update, hl, hmle, hns, hnlt, hmeq]
      · rw [if_neg hk0, if_neg (by omega : ¬ k < maxIt)]
        have hns : k + 1 ≠ 0 := by omega
        have hnlt : ¬ (k + 1 < maxIt) := by omega
        simp [retryRound, gate_fail_update, hns, hnlt]

/-- C2 (amended: the exact-at-`max_iterations` consequence requires
`max_iterations ≥ 1`): on a failed gate every `completed` task of the
layer has its iteration incremented by exactly one and becomes `pending`
when the new iteration is below `max_iterations` and terminal `failed`
otherwise; a task failing repeatedly from iteration 0 reaches `failed`
exactly when its iteration equals `max_iterations` (its iteration never
exceeds it), and a `failed` task is left untouched by further rounds. -/
theorem gate_failure_retry_bound (layer : String) (maxIt : Nat) (out : String)
    (t : OTask) (hmax : 1 ≤ maxIt) (hl : t.layer = layer)
    (hs : t.status = OTaskStatus.completed) (hi : t.iteration = 0) :
    (∀ u : OTask, u.layer = layer → u.status = OTaskStatus.completed →
      (gate_fail_update layer maxIt out u).iteration = u.iteration + 1 ∧
      ((gate_fail_update layer maxIt out u).status = OTaskStatus.failed ↔
        maxIt ≤ u.iteration + 1) ∧
      ((gate_fail_update layer maxIt out u).status = OTaskStatus.pending ↔
        u.iteration + 1 < maxIt)) ∧
    (∀ u : OTask, u.status ≠ OTaskStatus.completed →
      gate_fail_update layer maxIt out u = u) ∧
    (∀ k : Nat, (((retryRound layer maxIt out)^[k]) t).iteration = min k maxIt) ∧
    (∀ k : Nat,
      ((((retryRound layer maxIt out)^[k]) t).status = OTaskStatus.failed ↔
        maxIt ≤ k)) ∧
    (∀ u : OTask, u.status = OTaskStatus.failed →
      retryRound layer maxIt out u = u) := by
  refine ⟨?_, ?_, ?_, ?_, ?_⟩
  · intro u hul hus
    refine ⟨by simp [gate_fail_update, hul, hus], ?_, ?_⟩
    · by_cases hle : maxIt ≤ u.iteration + 1
      · simp [gate_fail_update, hul, hus, hle]
      · simp [gate_fail_update, hul, hus, hle]
    · by_cases hle : maxIt ≤ u.iteration + 1
      · simp [gate_fail_update, hul, hus, hle]
        try omega
      · simp [gate_fail_update, hul, hus, hle]
        try omega
  · intro u hus
    simp [gate_fail_update, hus]
  · intro k
    rw [retryRound_traj layer maxIt out t hmax hl hs hi k]
    by_cases hk0 : k = 0
    · subst hk0
      simp [hi]
    · rcases Nat.lt_or_ge k maxIt with hk | hk
      · rw [if_neg hk0, if_pos hk]
        simp
        omega
      · rw [if_neg hk0, if_neg (by omega : ¬ k < maxIt)]
        simp
        omega
  · intro k
    rw [retryRound_traj layer maxIt out t hmax hl hs hi k]
    by_cases hk0 : k = 0
    · subst hk0
      simp [hs]
      omega
    · rcases Nat.lt_or_ge k maxIt with hk | hk
      · rw [if_neg hk0, if_pos hk]
        simp
        omega
      · rw [if_neg hk0, if_neg (by omega : ¬ k < maxIt)]
        simp
        omega
  · intro u hus
    simp [retryRound, gate_fail_update, hus]

/-- C8: on load, a missing persisted status or a changed design-document
hash yields a fresh status from the document — every task `pending` at
iteration 0, every gate `not_run`, current layer the first layer of the
fixed vocabulary — while a matching hash returns the persisted status
unchanged. -/
theorem load_or_init_spec (persisted : Option OrchestratorStatus)
    (current_hash : String) (d : Design) :
    ((persisted = none ∨
        ∃ st, persisted = some st ∧ st.design_doc_hash ≠ current_hash) →
      load_or_init persisted current_hash d =
        init_status_from_design current_hash d ∧
      (∀ t ∈ (load_or_init persisted current_hash d).tasks,
        t.status = OTaskStatus.pending ∧ t.iteration = 0) ∧
      (∀ g ∈ (load_or_init persisted current_hash d).gates,
        g.status = OGateStatus.not_run) ∧
      (load_or_init persisted current_hash d).current_layer = "requirements" ∧
      LAYERS.head? = some "requirements") ∧
    (∀ st, persisted = some st → st.design_doc_hash = current_hash →
      load_or_init persisted current_hash d = st) := by
  constructor
  · intro hfresh
    have heq : load_or_init persisted current_hash d =
        init_status_from_design current_hash d := by
      rcases hfresh with rfl | ⟨st, rfl, hne⟩
      · rfl
      · simp [load_or_init, hne]
    refine ⟨heq, ?_, ?_, ?_, rfl⟩
    · intro t ht
      rw [heq] at ht
      simp only [init_status_from_design, List.mem_map] at ht
      rcases ht with ⟨u, -, rfl⟩
      exact ⟨rfl, rfl⟩
    · intro g hg
      rw [heq] at hg
      simp only [init_status_from_design, List.mem_map] at hg
      rcases hg with ⟨l, -, rfl⟩
      rfl
    · rw [heq]
      rfl
  · intro st hst hhash
    subst hst
    simp [load_or_init, hhash]

/-! ### Concrete inputs for the orchestrator witnesses -/

/-- A status with one passed dependency and one dispatchable task. -/
def demoStatus : OrchestratorStatus :=
  { design_doc_hash := "h0"
    current_layer := "tdd"
    tasks :=
      [{ name := "a", layer := "tdd", status := .passed },
       { name := "b", layer := "tdd", depends_on := ["a"] },
       { name := "c", layer := "implementation" }]
    gates := []
    max_parallel := 4 }

theorem get_ready_tasks_spec_witness :
    (∃ t ∈ demoStatus.tasks, t.name = "b" ∧
      t.layer = demoStatus.current_layer ∧ t.status = OTaskStatus.pending) ∧
    (get_ready_tasks demoStatus).length ≤ demoStatus.max_parallel :=
  ⟨(get_ready_tasks_spec demoStatus).1 "b" (by decide),
   (get_ready_tasks_spec demoStatus).2⟩

theorem get_ready_tasks_deps_satisfied_witness :
    ∃ t ∈ demoStatus.tasks, t.name = "b" ∧
      ∀ d ∈ t.depends_on, ∃ dt,
        (demoStatus.tasks.find? fun u => u.name = d) = some dt ∧
        (dt.status = OTaskStatus.passed ∨ dt.status = OTaskStatus.skipped) :=
  get_ready_tasks_deps_satisfied demoStatus "b" (by decide)

/-- A completed task about to see its layer gate fail. -/
def c2DemoTask : OTask :=
  { name := "t", layer := "tdd", status := .completed }

theorem gate_failure_retry_bound_witness :
    (((retryRound "tdd" 3 "boom")^[3]) c2DemoTask).iteration = min 3 3 ∧
    ((((retryRound "tdd" 3 "boom")^[3]) c2DemoTask).status = OTaskStatus.failed ↔
      (3 : Nat) ≤ 3) :=
  ⟨(gate_failure_retry_bound "tdd" 3 "boom" c2DemoTask (by decide) rfl rfl
      rfl).2.2.1 3,
   (gate_failure_retry_bound "tdd" 3 "boom" c2DemoTask (by decide) rfl rfl
      rfl).2.2.2.1 3⟩

/-- C2 counterexample: with `max_iterations = 0` (accepted by the schema,
which never validates the field) the first gate failure moves a completed
task from iteration 0 to terminal `failed` with iteration `1`, which does
not equal `max_iterations`: the transition to `failed` is not "exactly
when iteration equals max_iterations". -/
theorem gate_failure_retry_bound_counterexample :
    ((gate_fail_update "tdd" 0 "boom" c2DemoTask).status = OTaskStatus.failed ∧
      (gate_fail_update "tdd" 0 "boom" c2DemoTask).iteration = 1) ∧
    (1 : Nat) ≠ 0 := by
  constructor
  · constructor
    · rfl
    · rfl
  · decide

/-- A design document with one task, for the C8 witness. -/
def demoDesign : Design :=
  { project_name := "p"
    tasks := [{ name := "a", layer := "requirements" }] }

/-- A stale persisted status whose hash no longer matches. -/
def stalePersisted : OrchestratorStatus :=
  { design_doc_hash := "old"
    current_layer := "safety"
    tasks := [{ name := "a", layer := "requirements", status := .passed,
                iteration := 2 }] }

theorem load_or_init_spec_witness :
    (load_or_init (some stalePersisted) "new" demoDesign =
        init_status_from_design "new" demoDesign ∧
      (∀ t ∈ (load_or_init (some stalePersisted) "new" demoDesign).tasks,
        t.status = OTaskStatus.pending ∧ t.iteration = 0) ∧
      (∀ g ∈ (load_or_init (some stalePersisted) "new" demoDesign).gates,
        g.status = OGateStatus.not_run) ∧
      (load_or_init (some stalePersisted) "new" demoDesign).current_layer =
        "requirements" ∧
      LAYERS.head? = some "requirements") ∧
    load_or_init (some stalePersisted) "old" demoDesign = stalePersisted :=
  ⟨(load_or_init_spec (some stalePersisted) "new" demoDesign).1
      (Or.inr ⟨stalePersisted, rfl, by decide⟩),
   (load_or_init_spec (some stalePersisted) "old" demoDesign).2
      stalePersisted rfl rfl⟩

/-! ## Worktree manager (`worktree/manager.py`)

Git state is embedded abstractly: a commit is a `Nat` identifier, the
trunk (`main` branch) is its list of commits, and each managed worktree's
branch is `base ++ own`, where `own` are the commits made in the worktree
since branching and `base` is what it was last rebased onto.  Whether
`git rebase` of a given worktree conflicts is an uninterpreted oracle
`conflict : String → Bool` (it depends on file contents the manager never
inspects); a clean rebase rewrites `base` to the current trunk and keeps
`own`; an aborted rebase (`git rebase --abort`) leaves the branch exactly
as it was.  `git merge --ff-only b` succeeds iff the trunk is a prefix of
`b`'s history and then advances the trunk to it.  The optional
`reverify_callback` is likewise an oracle `Option (String → Bool)`. -/

/-- A worktree's branch: the commits it was branched from / rebased onto,
and its own commits. -/
structure WtBranch where
  base : List Nat
  own : List Nat
deriving Repr, DecidableEq

/-- The manager's state: `_worktrees` (name → branch) and the trunk. -/
structure ManagerState where
  worktrees : List (String × WtBranch)
  trunk : List Nat
deriving Repr, DecidableEq

/-- Lookup of `self._worktrees[name]`. -/
def lookupWt (l : List (String × WtBranch)) (name : String) : Option WtBranch :=
  (l.find? fun p => p.1 = name).map Prod.snd

/-- Replace a worktree's branch content in the table. -/
def setWt (l : List (String × WtBranch)) (name : String) (br : WtBranch) :
    List (String × WtBranch) :=
  l.map fun p => if p.1 = name then (p.1, br) else p

/-- `WorktreeManager.rebase_worktree`: raises on an unknown worktree;
otherwise rebases the branch onto the current trunk, returning `false`
(after aborting, which restores the branch) when the rebase conflicts. -/
def rebase_worktree (conflict : String → Bool) (s : ManagerState)
    (name : String) : Except String (Bool × ManagerState) :=
  match lookupWt s.worktrees name with
  | none => .error "Unknown worktree"
  | some br =>
    if conflict name then
      .ok (false, s)
    else
      .ok (true, { s with worktrees := setWt s.worktrees name ⟨s.trunk, br.own⟩ })

/-- `WorktreeManager.merge_worktree_to_main`: raises on an unknown
worktree; otherwise checks out the main branch and merges the worktree's
branch with `--ff-only`, which succeeds exactly when the trunk is a
prefix of the branch. -/
def merge_worktree_to_main (s : ManagerState) (name : String) :
    Except String (Bool × ManagerState) :=
  match lookupWt s.worktrees name with
  | none => .error "Unknown worktree"
  | some br =>
    if s.trunk.isPrefixOf (br.base ++ br.own) then
      .ok (true, { s with trunk := br.base ++ br.own })
    else
      .ok (false, s)

/-- Does the optional reverification callback reject this worktree? -/
def reverifyFails (reverify : Option (String → Bool)) (name : String) : Bool :=
  match reverify with
  | some v => !(v name)
  | none => false

/-- `WorktreeManager.linear_rebase_all`: process the worktrees in the
given order; an unknown name records `(name, false)` and moves on; a
conflicting rebase records `(name, false)` and moves on; a failed
reverification records `(name, false)` and moves on; otherwise the
branch is merged to trunk with `--ff-only` and the merge's outcome
recorded.  No workspace is ever removed by this pass. -/
def linear_rebase_all (conflict : String → Bool)
    (reverify : Option (String → Bool)) (s : ManagerState) :
    List String → Except String (List (String × Bool) × ManagerState)
  | [] => .ok ([], s)
  | name :: rest =>
    match lookupWt s.worktrees name with
    | none =>
      match linear_rebase_all conflict reverify s rest with
      | .ok (res, s') => .ok ((name, false) :: res, s')
      | .error e => .error e
    | some _ =>
      match rebase_worktree conflict s name with
      | .error e => .error e
      | .ok (ok1, s1) =>
        if ok1 = false then
          match linear_rebase_all conflict reverify s1 rest with
          | .ok (res, s') => .ok ((name, false) :: res, s')
          | .error e => .error e
        else if reverifyFails reverify name then
          match linear_rebase_all conflict reverify s1 rest with
          | .ok (res, s') => .ok ((name, false) :: res, s')
          | .error e => .error e
        else
          match merge_worktree_to_main s1 name with
          | .error e => .error e
          | .ok (ok2, s2) =>
            match linear_rebase_all conflict reverify s2 rest with
            | .ok (res, s') => .ok ((name, ok2) :: res, s')
            | .error e => .error e

/-! ### Worktree-table lemmas -/

theorem map_fst_setWt (l : List (String × WtBranch)) (name : String)
    (br : WtBranch) : (setWt l name br).map Prod.fst = l.map Prod.fst := by
  induction l with
  | nil => rfl
  | cons p l' ih =>
    by_cases hp : p.1 = name
    · simp [setWt, hp] at ih ⊢
      exact ih
    · simp [setWt, hp] at ih ⊢
      exact ih

theorem lookupWt_setWt_self {l : List (String × WtBranch)} {name : String}
    {br0 : WtBranch} (h : lookupWt l name = some br0) (br : WtBranch) :
    lookupWt (setWt l name br) name = some br := by
  induction l with
  | nil => simp [lookupWt] at h
  | cons p l' ih =>
    by_cases hp : p.1 = name
    · simp [lookupWt, setWt, List.find?_cons, hp]
    · simp only [lookupWt, setWt, List.map_cons, if_neg hp] at h ⊢
      rw [List.find?_cons_of_neg _ (by simpa using hp)] at h
      rw [List.find?_cons_of_neg _ (by simpa using hp)]
      exact ih h

theorem lookupWt_setWt_ne {l : List (String × WtBranch)} {name m : String}
    (hm : m ≠ name) (br : WtBranch) :
    lookupWt (setWt l name br) m = lookupWt l m := by
  induction l with
  | nil => rfl
  | cons p l' ih =>
    by_cases hp : p.1 = name
    · have hpm : ¬ p.1 = m := by rw [hp]; exact fun h => hm h.symm
      simp only [lookupWt, setWt, List.map_cons, if_pos hp] at ih ⊢
      rw [List.find?_cons_of_neg _ (by simpa using hpm),
        List.find?_cons_of_neg _ (by simpa using hpm)]
      exact ih
    · simp only [lookupWt, setWt, List.map_cons, if_neg hp] at ih ⊢
      by_cases hpm : p.1 = m
      · rw [List.find?_cons_of_pos _ (by simpa using hpm),
          List.find?_cons_of_pos _ (by simpa using hpm)]
      · rw [List.find?_cons_of_neg _ (by simpa using hpm),
          List.find?_cons_of_neg _ (by simpa using hpm)]
        exact ih

theorem lookupWt_eq_none_iff {l : List (String × WtBranch)} {m : String} :
    lookupWt l m = none ↔ m ∉ l.map Prod.fst := by
  simp only [lookupWt, Option.map_eq_none', List.find?_eq_none, List.mem_map,
    decide_eq_true_eq]
  constructor
  · intro h hmem
    rcases hmem with ⟨p, hp, rfl⟩
    exact h p hp rfl
  · intro h p hp hpm
    exact h ⟨p, hp, hpm⟩

theorem isPrefixOf_append_self (l r : List Nat) :
    l.isPrefixOf (l ++ r) = true := by
  induction l with
  | nil => simp [List.isPrefixOf]
  | cons a l' ih => simp [List.isPrefixOf, ih]

/-- `linear_rebase_all` never throws, produces one outcome per supplied
name, and never adds or removes a workspace (in particular it deletes
none). -/
theorem linear_rebase_all_ok (conflict : String → Bool)
    (reverify : Option (String → Bool)) :
    ∀ (order : List String) (s : ManagerState),
    ∃ res s', linear_rebase_all conflict reverify s order = .ok (res, s') ∧
      res.length = order.length ∧
      s'.worktrees.map Prod.fst = s.worktrees.map Prod.fst := by
  intro order
  induction order with
  | nil => intro s; exact ⟨[], s, rfl, rfl, rfl⟩
  | cons name rest ih =>
    intro s
    cases hlook : lookupWt s.worktrees name with
    | none =>
      rcases ih s with ⟨res, s', hrun, hlen, hnames⟩
      refine ⟨(name, false) :: res, s', ?_, by simp [hlen], hnames⟩
      simp only [linear_rebase_all, hlook, hrun]
    | some br =>
      by_cases hconf : conflict name = true
      · rcases ih s with ⟨res, s', hrun, hlen, hnames⟩
        refine ⟨(name, false) :: res, s', ?_, by simp [hlen], hnames⟩
        have hreb : rebase_worktree conflict s name = .ok (false, s) := by
          simp [rebase_worktree, hlook, hconf]
        simp [linear_rebase_all, hlook, hreb, hrun]
      · have hreb : rebase_worktree conflict s name =
            .ok (true, { s with worktrees := setWt s.worktrees name ⟨s.trunk, br.own⟩ }) := by
          simp [rebase_worktree, hlook, hconf]
        set s1 : ManagerState :=
          { s with worktrees := setWt s.worktrees name ⟨s.trunk, br.own⟩ } with hs1
        have hnames1 : s1.worktrees.map Prod.fst = s.worktrees.map Prod.fst :=
          map_fst_setWt _ _ _
        by_cases hrev : reverifyFails reverify name = true
        · rcases ih s1 with ⟨res, s', hrun, hlen, hnames⟩
          refine ⟨(name, false) :: res, s', ?_, by simp [hlen],
            hnames.trans hnames1⟩
          simp [linear_rebase_all, hlook, hreb, hrev, hrun]
        · have hlook1 : lookupWt s1.worktrees name = some ⟨s.trunk, br.own⟩ :=
            lookupWt_setWt_self hlook _
          have hmerge : merge_worktree_to_main s1 name =
              .ok (true, { s1 with trunk := s.trunk ++ br.own }) := by
            simp [merge_worktree_to_main, hlook1, isPrefixOf_append_self]
          set s2 : ManagerState := { s1 with trunk := s.trunk ++ br.own } with hs2
          rcases ih s2 with ⟨res, s', hrun, hlen, hnames⟩
          refine ⟨(name, true) :: res, s', ?_, by simp [hlen], ?_⟩
          · simp [linear_rebase_all, hlook, hreb, hrev, hmerge, hrun]
          · exact hnames.trans hnames1

/-- C9: a name in the merge order that is not a known workspace yields
`(name, false)` at exactly its position in the outcome list; no exception
is raised, processing continues with the remaining workspaces, and for the
unknown name no git state is touched — the run's outcomes for the other
names and its final state are those of the run without the unknown
name. -/
theorem linear_rebase_all_unknown_name (conflict : String → Bool)
    (reverify : Option (String → Bool)) (bad : String) :
    ∀ (before after : List String) (s : ManagerState),
    lookupWt s.worktrees bad = none →
    ∃ res1 res2 s',
      linear_rebase_all conflict reverify s (before ++ after) =
        .ok (res1 ++ res2, s') ∧
      res1.length = before.length ∧
      linear_rebase_all conflict reverify s (before ++ bad :: after) =
        .ok (res1 ++ (bad, false) :: res2, s') := by
  intro before
  induction before with
  | nil =>
    intro after s hbad
    rcases linear_rebase_all_ok conflict reverify after s with
      ⟨res, s', hrun, -, -⟩
    refine ⟨[], res, s', by simpa using hrun, rfl, ?_⟩
    simp only [List.nil_append]
    simp [linear_rebase_all, hbad, hrun]
  | cons n before' ih =>
    intro after s hbad
    have hbad_names : bad ∉ s.worktrees.map Prod.fst :=
      lookupWt_eq_none_iff.1 hbad
    cases hlook : lookupWt s.worktrees n with
    | none =>
      rcases ih after s hbad with ⟨res1, res2, s', hrun1, hlen, hrun2⟩
      exact ⟨(n, false) :: res1, res2, s',
        by simp [linear_rebase_all, hlook, hrun1],
        by simp [hlen],
        by simp [linear_rebase_all, hlook, hrun2]⟩
    | some br =>
      by_cases hconf : conflict n = true
      · have hreb : rebase_worktree conflict s n = .ok (false, s) := by
          simp [rebase_worktree, hlook, hconf]
        rcases ih after s hbad with ⟨res1, res2, s', hrun1, hlen, hrun2⟩
        exact ⟨(n, false) :: res1, res2, s',
          by simp [linear_rebase_all, hlook, hreb, hrun1],
          by simp [hlen],
          by simp [linear_rebase_all, hlook, hreb, hrun2]⟩
      · have hreb : rebase_worktree conflict s n =
            .ok (true, { s with worktrees := setWt s.worktrees n ⟨s.trunk, br.own⟩ }) := by
          simp [rebase_worktree, hlook, hconf]
        set s1 : ManagerState :=
          { s with worktrees := setWt s.worktrees n ⟨s.trunk, br.own⟩ } with hs1
        have hbad1 : lookupWt s1.worktrees bad = none := by
          refine lookupWt_eq_none_iff.2 ?_
          rw [show s1.worktrees = setWt s.worktrees n ⟨s.trunk, br.own⟩ from rfl,
            map_fst_setWt]
          exact hbad_names
        by_cases hrev : reverifyFails reverify n = true
        · rcases ih after s1 hbad1 with ⟨res1, res2, s', hrun1, hlen, hrun2⟩
          exact ⟨(n, false) :: res1, res2, s',
            by simp [linear_rebase_all, hlook, hreb, hrev, hrun1],
            by simp [hlen],
            by simp [linear_rebase_all, hlook, hreb, hrev, hrun2]⟩
        · have hlook1 : lookupWt s1.worktrees n = some ⟨s.trunk, br.own⟩ :=
            lookupWt_setWt_self hlook _
          have hmerge : merge_worktree_to_main s1 n =
              .ok (true, { s1 with trunk := s.trunk ++ br.own }) := by
            simp [merge_worktree_to_main, hlook1, isPrefixOf_append_self]
          set s2 : ManagerState := { s1 with trunk := s.trunk ++ br.own } with hs2
          have hbad2 : lookupWt s2.worktrees bad = none := hbad1
          rcases ih after s2 hbad2 with ⟨res1, res2, s', hrun1, hlen, hrun2⟩
          exact ⟨(n, true) :: res1, res2, s',
            by simp [linear_rebase_all, hlook, hreb, hrev, hmerge, hrun1],
            by simp [hlen],
            by simp [linear_rebase_all, hlook, hreb, hrev, hmerge, hrun2]⟩

/-- C4: with workspaces `[W1, W2]` where W1 rebases cleanly (and so
fast-forward merges) and W2's rebase conflicts, the outcomes are
`[(W1, true), (W2, false)]` in order, the trunk gains exactly W1's
commits, and W2 — its rebase aborted, its own commits untouched — is still
registered with its branch intact for manual resolution. -/
theorem linear_rebase_clean_then_conflict (conflict : String → Bool)
    (s : ManagerState) (w1 w2 : String) (br1 br2 : WtBranch)
    (h1 : lookupWt s.worktrees w1 = some br1)
    (h2 : lookupWt s.worktrees w2 = some br2)
    (hne : w1 ≠ w2) (hc1 : conflict w1 = false) (hc2 : conflict w2 = true) :
    ∃ s', linear_rebase_all conflict none s [w1, w2] =
        .ok ([(w1, true), (w2, false)], s') ∧
      s'.trunk = s.trunk ++ br1.own ∧
      lookupWt s'.worktrees w1 = some ⟨s.trunk, br1.own⟩ ∧
      lookupWt s'.worktrees w2 = some br2 := by
  have hreb1 : rebase_worktree conflict s w1 =
      .ok (true, { s with worktrees := setWt s.worktrees w1 ⟨s.trunk, br1.own⟩ }) := by
    simp [rebase_worktree, h1, hc1]
  set s1 : ManagerState :=
    { s with worktrees := setWt s.worktrees w1 ⟨s.trunk, br1.own⟩ } with hs1
  have hlook1 : lookupWt s1.worktrees w1 = some ⟨s.trunk, br1.own⟩ :=
    lookupWt_setWt_self h1 _
  have hmerge : merge_worktree_to_main s1 w1 =
      .ok (true, { s1 with trunk := s.trunk ++ br1.own }) := by
    simp [merge_worktree_to_main, hlook1, isPrefixOf_append_self]
  set s2 : ManagerState := { s1 with trunk := s.trunk ++ br1.own } with hs2
  have hlook2 : lookupWt s2.worktrees w2 = some br2 := by
    rw [show s2.worktrees = setWt s.worktrees w1 ⟨s.trunk, br1.own⟩ from rfl,
      lookupWt_setWt_ne (fun h => hne h.symm)]
    exact h2
  have hreb2 : rebase_worktree conflict s2 w2 = .ok (false, s2) := by
    simp [rebase_worktree, hlook2, hc2]
  refine ⟨s2, ?_, rfl, ?_, hlook2⟩
  · simp [linear_rebase_all, h1, hreb1, reverifyFails, hmerge, hlook2, hreb2]
  · rw [show s2.worktrees = s1.worktrees from rfl]
    exact hlook1

/-- C3 (amended): for a workspace whose rebase succeeds and whose optional
reverification passes, `linear_rebase_all` merges the rebased branch into
the trunk with a fast-forward-only merge (the trunk becomes the linear
extension of itself by the workspace's own commits) and records success —
but the workspace is not deleted: it stays registered with the manager,
and the pass removes no workspace at all. -/
theorem linear_rebase_merge_keeps_workspace (conflict : String → Bool)
    (reverify : Option (String → Bool)) (s : ManagerState) (w : String)
    (br : WtBranch) (h : lookupWt s.worktrees w = some br)
    (hc : conflict w = false) (hv : reverifyFails reverify w = false) :
    ∃ s', linear_rebase_all conflict reverify s [w] = .ok ([(w, true)], s') ∧
      s'.trunk = s.trunk ++ br.own ∧
      lookupWt s'.worktrees w = some ⟨s.trunk, br.own⟩ ∧
      s'.worktrees.map Prod.fst = s.worktrees.map Prod.fst := by
  have hreb : rebase_worktree conflict s w =
      .ok (true, { s with worktrees := setWt s.worktrees w ⟨s.trunk, br.own⟩ }) := by
    simp [rebase_worktree, h, hc]
  set s1 : ManagerState :=
    { s with worktrees := setWt s.worktrees w ⟨s.trunk, br.own⟩ } with hs1
  have hlook1 : lookupWt s1.worktrees w = some ⟨s.trunk, br.own⟩ :=
    lookupWt_setWt_self h _
  have hmerge : merge_worktree_to_main s1 w =
      .ok (true, { s1 with trunk := s.trunk ++ br.own }) := by
    simp [merge_worktree_to_main, hlook1, isPrefixOf_append_self]
  refine ⟨{ s1 with trunk := s.trunk ++ br.own }, ?_, rfl, hlook1, ?_⟩
  · simp [linear_rebase_all, h, hreb, hv, hmerge]
  · rw [show ({ s1 with trunk := s.trunk ++ br.own } : ManagerState).worktrees
      = setWt s.worktrees w ⟨s.trunk, br.own⟩ from rfl]
    exact map_fst_setWt _ _ _

/-- C3 counterexample: a concrete run in which the rebase and the
fast-forward merge succeed, yet afterwards the workspace is still
registered with the manager — `linear_rebase_all` deletes no workspace,
contradicting the claim that the workspace is then deleted. -/
theorem linear_rebase_no_delete_counterexample :
    linear_rebase_all (fun _ => false) none
        ⟨[("w1", ⟨[0], [1]⟩)], [0]⟩ ["w1"] =
      .ok ([("w1", true)], ⟨[("w1", ⟨[0], [1]⟩)], [0, 1]⟩) ∧
    lookupWt (⟨[("w1", ⟨[0], [1]⟩)], [0, 1]⟩ : ManagerState).worktrees "w1" =
      some ⟨[0], [1]⟩ := by
  constructor
  · rfl
  · rfl

/-! ### Concrete inputs for the worktree witnesses -/

/-- Two workspaces over a one-commit trunk. -/
def demoManager : ManagerState :=
  ⟨[("w1", ⟨[0], [1]⟩), ("w2", ⟨[0], [2]⟩)], [0]⟩

theorem linear_rebase_all_unknown_name_witness :
    ∃ res1 res2 s',
      linear_rebase_all (fun _ => false) none demoManager (["w1"] ++ []) =
        .ok (res1 ++ res2, s') ∧
      res1.length = (["w1"] : List String).length ∧
      linear_rebase_all (fun _ => false) none demoManager
          (["w1"] ++ "ghost" :: []) =
        .ok (res1 ++ ("ghost", false) :: res2, s') :=
  linear_rebase_all_unknown_name (fun _ => false) none "ghost" ["w1"] []
    demoManager (by decide)

theorem linear_rebase_clean_then_conflict_witness :
    ∃ s', linear_rebase_all (fun n => n == "w2") none demoManager ["w1", "w2"] =
        .ok ([("w1", true), ("w2", false)], s') ∧
      s'.trunk = demoManager.trunk ++ [1] ∧
      lookupWt s'.worktrees "w1" = some ⟨demoManager.trunk, [1]⟩ ∧
      lookupWt s'.worktrees "w2" = some ⟨[0], [2]⟩ :=
  linear_rebase_clean_then_conflict (fun n => n == "w2") demoManager
    "w1" "w2" ⟨[0], [1]⟩ ⟨[0], [2]⟩ (by decide) (by decide) (by decide)
    (by decide) (by decide)

theorem linear_rebase_merge_keeps_workspace_witness :
    ∃ s', linear_rebase_all (fun _ => false) (some fun _ => true)
        demoManager ["w1"] = .ok ([("w1", true)], s') ∧
      s'.trunk = demoManager.trunk ++ [1] ∧
      lookupWt s'.worktrees "w1" = some ⟨demoManager.trunk, [1]⟩ ∧
      s'.worktrees.map Prod.fst = demoManager.worktrees.map Prod.fst :=
  linear_rebase_merge_keeps_workspace (fun _ => false) (some fun _ => true)
    demoManager "w1" ⟨[0], [1]⟩ (by decide) (by decide) (by decide)

end SwissCheese
